import Mathlib

/-!
Verification of the batch execution core: the order-by (sort-merge) executor
(`src/rust/server/src/executor/order_by.rs`), the broadcast exchange channel
(`src/rust/server/src/task/broadcast_channel.rs`) and the extended decimal type
(`src/src/utils/memcomparable/src/decimal.rs`).

The embedding models columnar batches over a single nullable scalar type
(`Option Int`); expressions bound to a column position (`InputRefExpression`)
are the column index itself. Code of the repository that is not among the
given sources (the row comparator `compare_two_row`, the heap element ordering
`HeapElem: Ord`, `DataChunk`, `fetch_orders_from_order_by_node`,
`K_PROCESSING_WINDOW_SIZE`) is modelled from the spec; each such definition
says so in its doc comment. `std::collections::BinaryHeap` and `mpsc` channels
are library dependencies: the heap is modelled operation for operation after
the Rust standard library (push = append + sift_up; pop = swap the last
element to the root + sift_down_to_bottom), the channel as a FIFO queue per
receiver. Loops are written with an explicit fuel argument equal to the bound
the Rust loop condition enforces, so every definition reduces in the kernel.
-/

/-- A nullable scalar value (`none` is SQL NULL). -/
abbrev Value := Option Int

/-- Sort direction of one order key. -/
inductive OrderType where
  | Ascending
  | Descending
deriving DecidableEq, Repr

/-- Modelled from the spec: an OrderKey is "an expression evaluator bound to a
column position, plus a direction (ascending/descending)". The field `order`
models the bound column position of the `InputRefExpression`. -/
structure OrderPair where
  order : Nat
  order_type : OrderType
deriving DecidableEq, Repr

/-- Modelled from the spec: a batch is "an immutable, fixed-capacity collection
of parallel typed columns plus an optional visibility mask"; a column
"supports positional random access returning an optional value". -/
structure DataChunk where
  columns : List (List Value)
  visibility : Option (List Bool)
deriving DecidableEq, Repr

instance : Inhabited DataChunk := ⟨⟨[], none⟩⟩

/-- Modelled from the spec: "Cardinality = number of physical rows (including
invisible ones)", read off the parallel columns. -/
def DataChunk.cardinality (c : DataChunk) : Nat :=
  (c.columns.head?.map List.length).getD 0

/-- Number of columns of the chunk (`DataChunk::dimension`). -/
def DataChunk.dimension (c : DataChunk) : Nat := c.columns.length

/-- Positional access into one column (`Array::value_at`): absence is NULL. -/
def DataChunk.valueAt (c : DataChunk) (col i : Nat) : Value :=
  (c.columns.getD col []).getD i none

/-- The row at physical index `i`, one value per column. -/
def DataChunk.rowAt (c : DataChunk) (i : Nat) : List Value :=
  c.columns.map (fun colArr => colArr.getD i none)

/-- A row of the chunk is skipped by `push_heap_for_chunk` when the visibility
mask is present and has bit `false` at the row: `visibility.is_set(i).map(|b|
!b).unwrap_or(false)`. -/
def DataChunk.skippedRow (c : DataChunk) (i : Nat) : Bool :=
  match c.visibility with
  | some vb => ((vb.get? i).map Bool.not).getD false
  | none => false

/-- A row participates (is visible) when it is not skipped. -/
def DataChunk.visibleRow (c : DataChunk) (i : Nat) : Bool := !(c.skippedRow i)

/-- Three-way comparison of `Int` (native type ordering). -/
def cmpInt (x y : Int) : Ordering :=
  if x < y then .lt else if x = y then .eq else .gt

/-- Modelled from the spec: SQL null-ordering with the "nulls first"
convention, then native type ordering of non-null values. -/
def cmpVal : Value → Value → Ordering
  | none, none => .eq
  | none, some _ => .lt
  | some _, none => .gt
  | some x, some y => cmpInt x y

/-- Invert a comparison outcome for a descending key. -/
def applyDir : OrderType → Ordering → Ordering
  | .Ascending, o => o
  | .Descending, o => o.swap

/-- Modelled from the spec: the row comparator contract of `compare_two_row`
applied to two materialized rows: "evaluate each OrderKey's expression against
both rows to obtain two nullable typed values; apply SQL null-ordering
semantics; compare non-null values by native type ordering; invert the result
if the key's direction is descending; if equal, continue to the next key; if
all keys are exhausted, rows are equal". Evaluation of a key bound to a column
position that does not exist in a row is an evaluation error (`none`). -/
def cmpRows (pairs : List OrderPair) (r1 r2 : List Value) : Option Ordering :=
  match pairs with
  | [] => some .eq
  | p :: rest =>
    match r1.get? p.order, r2.get? p.order with
    | some x, some y =>
      match applyDir p.order_type (cmpVal x y) with
      | .eq => cmpRows rest r1 r2
      | .lt => some .lt
      | .gt => some .gt
    | _, _ => none

/-- Modelled from the spec: `compare_two_row` compares the rows at `ia` in
`ca` and `ib` in `cb` under the order-key sequence; `none` models `Err`. -/
def compare_two_row (pairs : List OrderPair) (ca : DataChunk) (ia : Nat)
    (cb : DataChunk) (ib : Nat) : Option Ordering :=
  cmpRows pairs (ca.rowAt ia) (cb.rowAt ib)

/-- The comparator the local sort uses:
`compare_two_row(...).unwrap_or(Ordering::Equal)`
(`OrderByExecutor::get_order_index_from`). -/
def localOrd (pairs : List OrderPair) (c : DataChunk) (ia ib : Nat) : Ordering :=
  (compare_two_row pairs c ia c ib).getD .eq

/-- `a` sorts no later than `b` under the local comparator. -/
def localOrdLe (pairs : List OrderPair) (c : DataChunk) (ia ib : Nat) : Prop :=
  localOrd pairs c ia ib ≠ .gt

instance (pairs : List OrderPair) (c : DataChunk) :
    DecidableRel (localOrdLe pairs c) := by
  intro ia ib; unfold localOrdLe; infer_instance

/-- `OrderByExecutor::get_order_index_from`: the permutation of the chunk's
physical row indices, stably sorted by the order keys (Rust `sort_by` is a
stable sort; it is modelled by a stable insertion sort with the same
comparator). -/
def get_order_index_from (pairs : List OrderPair) (c : DataChunk) : List Nat :=
  List.insertionSort (localOrdLe pairs c) (List.range c.cardinality)

/-! ### The Rust standard library binary max-heap

`std::collections::BinaryHeap`, modelled operation for operation: the backing
vector is a function out of `Nat` together with its length. `push` appends and
sifts up; `pop` removes the last element, swaps it to the root and runs
`sift_down_to_bottom` (walk the hole to the bottom along greater children,
then sift up). The fuel arguments equal bounds on the number of loop
iterations (`pos` for sift-up, `size` for sift-down), so the recursion is
structural and the functions reduce in the kernel. -/

structure BinaryHeap (α : Type) where
  size : Nat
  data : Nat → α

namespace BinaryHeap

variable {α : Type}

/-- Point update of the backing store. -/
def upd (f : Nat → α) (i : Nat) (v : α) : Nat → α :=
  fun j => if j = i then v else f j

/-- Swap two slots of the backing vector. -/
def swap (h : BinaryHeap α) (i j : Nat) : BinaryHeap α :=
  { h with data := upd (upd h.data i (h.data j)) j (h.data i) }

/-- `BinaryHeap::sift_up` (with `start = 0`): move the element at `pos` up
while it is greater than its parent. The fuel is `pos`, which bounds the
number of iterations since the position strictly decreases. -/
def siftUpF (le : α → α → Bool) : Nat → BinaryHeap α → Nat → BinaryHeap α
  | 0, h, _ => h
  | fuel + 1, h, pos =>
    if pos = 0 then h
    else
      let parent := (pos - 1) / 2
      if le (h.data pos) (h.data parent) then h
      else siftUpF le fuel (h.swap pos parent) parent

def siftUp (le : α → α → Bool) (h : BinaryHeap α) (pos : Nat) : BinaryHeap α :=
  siftUpF le pos h pos

/-- `BinaryHeap::push`: append at the end, then sift up. -/
def push (le : α → α → Bool) (h : BinaryHeap α) (x : α) : BinaryHeap α :=
  siftUp le { size := h.size + 1, data := upd h.data h.size x } h.size

/-- The hole-walking loop of `BinaryHeap::sift_down_to_bottom`: while both
children exist move the hole to the greater child (ties pick the right child,
as `hole.get(child) <= hole.get(child + 1)` does); if exactly the left child
exists move there unconditionally. Returns the heap and the final position.
The fuel is the size, a bound on the iterations since the position strictly
increases and stays below the size. -/
def sdtbLoop (le : α → α → Bool) : Nat → BinaryHeap α → Nat → BinaryHeap α × Nat
  | 0, h, pos => (h, pos)
  | fuel + 1, h, pos =>
    let child := 2 * pos + 1
    if child + 1 < h.size then
      let c := if le (h.data child) (h.data (child + 1)) then child + 1 else child
      sdtbLoop le fuel (h.swap pos c) c
    else if child < h.size then (h.swap pos child, child)
    else (h, pos)

/-- `BinaryHeap::sift_down_to_bottom(0)`: walk the hole to the bottom, then
sift the displaced element back up. -/
def siftDownToBottom (le : α → α → Bool) (h : BinaryHeap α) : BinaryHeap α :=
  let hp := sdtbLoop le h.size h 0
  siftUp le hp.1 hp.2

/-- `BinaryHeap::pop`: remove the last element, swap it into the root slot and
restore the heap with `sift_down_to_bottom`; the old root is returned. -/
def pop (le : α → α → Bool) (h : BinaryHeap α) : Option (α × BinaryHeap α) :=
  if h.size = 0 then none
  else
    some (h.data 0,
      siftDownToBottom le
        { size := h.size - 1, data := upd h.data 0 (h.data (h.size - 1)) })

/-- The multiset of elements the heap holds, read off the backing vector. -/
def contents (h : BinaryHeap α) : List α :=
  (List.range h.size).map h.data

/-- The max-heap shape invariant: every element is `<=` its parent. -/
def IsHeap (le : α → α → Bool) (h : BinaryHeap α) : Prop :=
  ∀ i, 0 < i → i < h.size → le (h.data i) (h.data ((i - 1) / 2)) = true

/-- Every element the heap holds satisfies `P`. -/
def AllP (P : α → Prop) (h : BinaryHeap α) : Prop :=
  ∀ i, i < h.size → P (h.data i)

/-- Heap shape except possibly on the edge from `pos` up to its parent; the
children of `pos` are additionally `<=` the parent of `pos`. This is what one
sift-up step preserves. -/
def UpInv (le : α → α → Bool) (h : BinaryHeap α) (pos : Nat) : Prop :=
  (∀ i, 0 < i → i < h.size → i ≠ pos →
    le (h.data i) (h.data ((i - 1) / 2)) = true) ∧
  (0 < pos → ∀ c, c < h.size → (c - 1) / 2 = pos →
    le (h.data c) (h.data ((pos - 1) / 2)) = true)

/-- Heap shape except on the edges touching the hole at `pos` (to its parent
and to its children); the children of `pos` are `<=` the parent of `pos`.
This is what the downward walk of `sift_down_to_bottom` preserves. -/
def DownInv (le : α → α → Bool) (h : BinaryHeap α) (pos : Nat) : Prop :=
  (∀ i, 0 < i → i < h.size → i ≠ pos → (i - 1) / 2 ≠ pos →
    le (h.data i) (h.data ((i - 1) / 2)) = true) ∧
  (0 < pos → ∀ c, c < h.size → (c - 1) / 2 = pos →
    le (h.data c) (h.data ((pos - 1) / 2)) = true)

end BinaryHeap

/-! ### The order-by executor -/

/-- `HeapElem` of `sort_util`: one still-unconsumed row, identified by the
index of its batch and its physical row index. The shared `order_pairs` and
`chunk` references of the Rust struct are the ambient context. -/
structure HeapElem where
  chunk_idx : Nat
  elem_idx : Nat
deriving DecidableEq, Repr

instance : Inhabited HeapElem := ⟨⟨0, 0⟩⟩

/-- The chunk a heap element points into. -/
def chunkAt (chunks : List DataChunk) (i : Nat) : DataChunk :=
  chunks.getD i default

/-- Modelled from the spec: the ordering of `HeapElem` "is the *reverse* of
row order (smallest row order pops first)", with a comparator failure treated
as equality (the documented trade-off of the reference comparator). -/
def heCmp (pairs : List OrderPair) (chunks : List DataChunk)
    (a b : HeapElem) : Ordering :=
  ((compare_two_row pairs (chunkAt chunks a.chunk_idx) a.elem_idx
      (chunkAt chunks b.chunk_idx) b.elem_idx).getD .eq).swap

/-- Boolean `<=` of the derived `Ord`, as the heap's sift loops consult it. -/
def heLe (pairs : List OrderPair) (chunks : List DataChunk)
    (a b : HeapElem) : Bool :=
  heCmp pairs chunks a b != .gt

/-- Row order of two merge candidates (failure treated as equality). -/
def rcmp (pairs : List OrderPair) (chunks : List DataChunk)
    (a b : HeapElem) : Ordering :=
  (compare_two_row pairs (chunkAt chunks a.chunk_idx) a.elem_idx
      (chunkAt chunks b.chunk_idx) b.elem_idx).getD .eq

/-- `a`'s row sorts no later than `b`'s. -/
def rowLe (pairs : List OrderPair) (chunks : List DataChunk)
    (a b : HeapElem) : Prop :=
  rcmp pairs chunks a b ≠ .gt

/-- Modelled from the spec: the processing window, "the maximum row count
accumulated before an output batch is finalized and returned"
(`K_PROCESSING_WINDOW_SIZE`; the exact constant is immaterial, any positive
bound realizes the contract). -/
def K_PROCESSING_WINDOW_SIZE : Nat := 1024

/-- The upstream operator, as the executor observes it: the stream of batches
it will yield before `Done`, and whether `init` has been propagated to it
(modelled from the spec: "propagate initialization to the upstream
operator"). -/
structure ChildExecutor where
  stream : List DataChunk
  inited : Bool
deriving DecidableEq, Repr

/-- The state of `OrderByExecutor`. `data_types` keeps the number of column
types filled in by `fill_data_types` (all columns share the one scalar type of
the model). -/
structure OrderByExecutor where
  child : ChildExecutor
  first_execution : Bool
  sorted_indices : List (List Nat)
  chunks : List DataChunk
  vis_indices : List Nat
  min_heap : BinaryHeap HeapElem
  order_pairs : List OrderPair
  data_types : Nat

/-- One result of a pull: a batch, or end of stream. -/
inductive ExecutorResult where
  | Batch (chunk : DataChunk)
  | Done
deriving DecidableEq, Repr

/-- The loop body of `OrderByExecutor::push_heap_for_chunk`: starting at
cursor `v` into the sorted permutation `s` of chunk `c` (chunk index `idx`),
skip invisible rows; push the first visible row onto the heap and advance past
it, or stop at the end of the chunk. The fuel is `c.cardinality`, which the
loop condition `vis_indices[idx] < cardinality` bounds. -/
def pushHeapAux (pairs : List OrderPair) (chunks : List DataChunk)
    (c : DataChunk) (s : List Nat) (idx : Nat) :
    Nat → BinaryHeap HeapElem → Nat → BinaryHeap HeapElem × Nat
  | 0, hp, v => (hp, v)
  | fuel + 1, hp, v =>
    if v < c.cardinality then
      let si := s.getD v 0
      if c.skippedRow si then pushHeapAux pairs chunks c s idx fuel hp (v + 1)
      else (hp.push (heLe pairs chunks) ⟨idx, si⟩, v + 1)
    else (hp, v)

/-- `OrderByExecutor::push_heap_for_chunk` over the explicit pieces of state
it touches: the heap and the cursor vector. -/
def push_heap_for_chunk (pairs : List OrderPair) (chunks : List DataChunk)
    (sortedI : List (List Nat)) (idx : Nat) (hp : BinaryHeap HeapElem)
    (vis : List Nat) : BinaryHeap HeapElem × List Nat :=
  let c := chunkAt chunks idx
  let s := sortedI.getD idx []
  let r := pushHeapAux pairs chunks c s idx c.cardinality hp (vis.getD idx 0)
  (r.1, vis.set idx r.2)

/-- `OrderByExecutor::collect_child_data`: drain the child stream, retaining
each batch and its sorted index permutation; reset the cursor vector to zeros
and seed the heap from every retained batch. -/
def collect_child_data (s : OrderByExecutor) : OrderByExecutor :=
  let newChunks := s.chunks ++ s.child.stream
  let newSorted := s.sorted_indices ++
    s.child.stream.map (get_order_index_from s.order_pairs)
  let seeded := (List.range newChunks.length).foldl
    (fun (acc : BinaryHeap HeapElem × List Nat) idx =>
      push_heap_for_chunk s.order_pairs newChunks newSorted idx acc.1 acc.2)
    (s.min_heap, List.replicate newChunks.length 0)
  { s with
    child := { s.child with stream := [] }
    chunks := newChunks
    sorted_indices := newSorted
    min_heap := seeded.1
    vis_indices := seeded.2 }

/-- `OrderByExecutor::fill_data_types` reads `self.chunks[0]`: indexing an
empty vector panics, which `none` models. -/
def fill_data_types (s : OrderByExecutor) : Option OrderByExecutor :=
  match s.chunks.head? with
  | none => none
  | some c => some { s with data_types := c.dimension }

/-- The values of one output row: the builder appends, for every column index
below `data_types`, `chunks[top.chunk_idx].column_at(idx)?.array()`'s value at
`top.elem_idx`. `column_at` of a column index out of range is an error
(`none`). -/
def buildRow (dt : Nat) (chunks : List DataChunk) (e : HeapElem) :
    Option (List Value) :=
  let c := chunkAt chunks e.chunk_idx
  if dt ≤ c.dimension then
    some ((List.range dt).map (fun j => c.valueAt j e.elem_idx))
  else none

/-- The merge loop of `OrderByExecutor::execute`: while the heap is nonempty
and the output has room (`chunk_size < K_PROCESSING_WINDOW_SIZE`; the fuel is
the remaining room), pop the least candidate, record it, and refill the heap
from its batch. Returns the popped candidates in order with the final heap and
cursor vector. -/
def mergeLoop (pairs : List OrderPair) (chunks : List DataChunk)
    (sortedI : List (List Nat)) :
    Nat → BinaryHeap HeapElem → List Nat → List HeapElem × BinaryHeap HeapElem × List Nat
  | 0, hp, vis => ([], hp, vis)
  | fuel + 1, hp, vis =>
    match hp.pop (heLe pairs chunks) with
    | none => ([], hp, vis)
    | some (top, hp') =>
      let refilled := push_heap_for_chunk pairs chunks sortedI top.chunk_idx hp' vis
      let rest := mergeLoop pairs chunks sortedI fuel refilled.1 refilled.2
      (top :: rest.1, rest.2)

/-- Finalizing the builders into one output batch: column `j` holds the `j`-th
value of every emitted row, and the built chunk carries no visibility mask. -/
def buildChunk (dt : Nat) (rows : List (List Value)) : DataChunk :=
  ⟨(List.range dt).map (fun j => rows.map (fun r => r.getD j none)), none⟩

/-- The per-pull body of `OrderByExecutor::execute` after the one-time
collection: run the merge loop, materialize the accumulated rows through the
builders, and either finalize a batch or report `Done` when nothing was
accumulated (`chunk_size == 0`). `none` models a pull that returns `Err`. -/
def executeMerge (s1 : OrderByExecutor) : Option (ExecutorResult × OrderByExecutor) :=
  let r := mergeLoop s1.order_pairs s1.chunks s1.sorted_indices
    K_PROCESSING_WINDOW_SIZE s1.min_heap s1.vis_indices
  match r.1.mapM (buildRow s1.data_types s1.chunks) with
  | none => none
  | some rows =>
    let s2 := { s1 with min_heap := r.2.1, vis_indices := r.2.2 }
    if rows.isEmpty then some (.Done, s2)
    else some (.Batch (buildChunk s1.data_types rows), s2)

/-- `OrderByExecutor::execute`. On the first pull it drains the child and
fills the data types (a panic on an empty input, modelled `none`); every pull
then runs the merge loop. -/
def OrderByExecutor.execute (s : OrderByExecutor) :
    Option (ExecutorResult × OrderByExecutor) :=
  match (if s.first_execution then
      (fill_data_types (collect_child_data s)).map
        (fun t => { t with first_execution := false })
    else some s) with
  | none => none
  | some s1 => executeMerge s1

/-- `OrderByExecutor::init`: set `first_execution` and propagate `init` to the
child. No other field is touched. -/
def OrderByExecutor.init (s : OrderByExecutor) : OrderByExecutor :=
  { s with
    first_execution := true
    child := { s.child with inited := true } }

/-- The executor `new_boxed_executor` hands back for a child stream: empty
buffers, empty heap, first execution pending. -/
def freshExecutor (pairs : List OrderPair) (stream : List DataChunk) :
    OrderByExecutor :=
  { child := { stream := stream, inited := false }
    first_execution := true
    sorted_indices := []
    chunks := []
    vis_indices := []
    min_heap := { size := 0, data := fun _ => default }
    order_pairs := pairs
    data_types := 0 }

/-- Drive the executor until it signals `Done`, collecting the emitted
batches; `none` when a pull fails or the fuel runs out before `Done`. -/
def runExec : Nat → OrderByExecutor → Option (List DataChunk)
  | 0, _ => none
  | fuel + 1, s =>
    match s.execute with
    | none => none
    | some (.Done, _) => some []
    | some (.Batch c, s') => (runExec fuel s').map (c :: ·)

/-- The rows of a chunk, visible or not, in physical order. -/
def rowsOf (c : DataChunk) : List (List Value) :=
  (List.range c.cardinality).map c.rowAt

/-- The visible rows of a chunk, in physical order. -/
def visibleRowsOf (c : DataChunk) : List (List Value) :=
  ((List.range c.cardinality).filter c.visibleRow).map c.rowAt

/-! ### Specification-level notions for the merge proofs -/

/-- Wellformedness of an executor input: every chunk has the same number `d`
of columns and every order key is bound to a column position below `d`. -/
def WFInput (pairs : List OrderPair) (chunks : List DataChunk) (d : Nat) : Prop :=
  (∀ c ∈ chunks, c.dimension = d) ∧ (∀ p ∈ pairs, p.order < d)

/-- The visible rows of chunk `i`, as row indices in locally sorted order:
what the merge will consume from this chunk. -/
def vseq (pairs : List OrderPair) (chunks : List DataChunk) (i : Nat) : List Nat :=
  (get_order_index_from pairs (chunkAt chunks i)).filter ((chunkAt chunks i).visibleRow)

/-- The row values a merge candidate denotes. -/
def rowOf (chunks : List DataChunk) (e : HeapElem) : List Value :=
  (chunkAt chunks e.chunk_idx).rowAt e.elem_idx

/-- Row-level "sorts no later than" under the order keys (an evaluation
failure counts as equality, as everywhere in the executor). -/
def rowsLe (pairs : List OrderPair) (r1 r2 : List Value) : Prop :=
  (cmpRows pairs r1 r2).getD .eq ≠ .gt

/-- The merge invariant, per chunk `i`: some prefix of `vseq i` has been
consumed; all of it but possibly the last consumed candidate (still in the
heap) has been emitted; the cursor `vis_indices[i]` has advanced so that what
remains past it is exactly the unconsumed suffix of `vseq i`. `seeded`
distinguishes the chunks whose first candidate `collect_child_data` has
already pushed. -/
def ChunkSt (pairs : List OrderPair) (chunks : List DataChunk) (seeded : Nat)
    (hp : BinaryHeap HeapElem) (vis : List Nat) (emitted : List HeapElem)
    (i : Nat) : Prop :=
  ∃ m, m ≤ (vseq pairs chunks i).length ∧
    emitted.filter (fun e => e.chunk_idx == i) ++
      (BinaryHeap.contents hp).filter (fun e => e.chunk_idx == i) =
      ((vseq pairs chunks i).take m).map (fun j => HeapElem.mk i j) ∧
    ((BinaryHeap.contents hp).filter (fun e => e.chunk_idx == i)).length ≤ 1 ∧
    ((get_order_index_from pairs (chunkAt chunks i)).drop (vis.getD i 0)).filter
      ((chunkAt chunks i).visibleRow) = (vseq pairs chunks i).drop m ∧
    vis.getD i 0 ≤ (chunkAt chunks i).cardinality ∧
    (i < seeded →
      (BinaryHeap.contents hp).filter (fun e => e.chunk_idx == i) = [] →
      m = (vseq pairs chunks i).length) ∧
    (seeded ≤ i → m = 0 ∧ vis.getD i 0 = 0 ∧
      (BinaryHeap.contents hp).filter (fun e => e.chunk_idx == i) = [])

/-- The invariant of the k-way merge over the executor's mutable state. -/
structure MergeSt (pairs : List OrderPair) (chunks : List DataChunk) (seeded : Nat)
    (hp : BinaryHeap HeapElem) (vis : List Nat) (emitted : List HeapElem) : Prop where
  isHeap : BinaryHeap.IsHeap (heLe pairs chunks) hp
  visLen : vis.length = chunks.length
  allIdx : BinaryHeap.AllP (fun e => e.chunk_idx < chunks.length) hp
  emIdx : ∀ e ∈ emitted, e.chunk_idx < chunks.length
  emSorted : List.Pairwise (rowLe pairs chunks) emitted
  emHeapLe : ∀ e ∈ emitted, ∀ f ∈ BinaryHeap.contents hp, rowLe pairs chunks e f
  chunkSt : ∀ i, i < chunks.length → ChunkSt pairs chunks seeded hp vis emitted i

/-- The executor state the merge phase runs over: collection done, the
retained batches with their sorted permutations, and the current heap and
cursors. -/
def mkState (pairs : List OrderPair) (chunks : List DataChunk) (d : Nat)
    (b : Bool) (hp : BinaryHeap HeapElem) (vis : List Nat) : OrderByExecutor :=
  { child := { stream := [], inited := b }
    first_execution := false
    sorted_indices := chunks.map (get_order_index_from pairs)
    chunks := chunks
    vis_indices := vis
    min_heap := hp
    order_pairs := pairs
    data_types := d }

/-! ### Plan construction (`new_boxed_executor`) -/

/-- The node types the builder can meet. -/
inductive PlanNodeType where
  | ORDER_BY
  | SEQ_SCAN
  | EXCHANGE
deriving DecidableEq, Repr

/-- Errors of the builder: `ensure!` failures surface as internal errors,
protobuf parsing failures as `ProtobufError`. -/
inductive ExecError where
  | InternalError (msg : String)
  | ProtobufError
deriving DecidableEq, Repr

/-- The plan descriptor the builder consumes: node type, child descriptors
(abstract, built by a caller-supplied builder) and the serialized body. -/
structure ExecutorBuilder (χ : Type) where
  node_type : PlanNodeType
  children : List χ
  body : List Nat

/-- `OrderByExecutor::new_boxed_executor`: `ensure!` the node type and the
child count, parse the embedded `OrderByNode` (a parse failure maps to
`ProtobufError`), fetch the order pairs from it, build the one child. The
parser of the body and the builder of child plans are the caller's
(`parse_from_bytes`, `clone_for_plan(..).build()`); an `OrderByNode` is
modelled from the spec as the order-pair list it carries, so
`fetch_orders_from_order_by_node` reads it off directly. -/
def new_boxed_executor {χ : Type}
    (parseBody : List Nat → Except ExecError (List OrderPair))
    (buildChild : χ → Except ExecError (List DataChunk))
    (source : ExecutorBuilder χ) : Except ExecError OrderByExecutor :=
  if source.node_type ≠ .ORDER_BY then
    .error (.InternalError "ensure failed: node type")
  else if source.children.length ≠ 1 then
    .error (.InternalError "ensure failed: children")
  else
    match parseBody source.body with
    | .error _ => .error .ProtobufError
    | .ok order_pairs =>
      match source.children.head? with
      | some childPlan =>
        match buildChild childPlan with
        | .error e => .error e
        | .ok stream => .ok (freshExecutor order_pairs stream)
      | none => .error (.InternalError "OrderBy must have one child")

/-! ### The broadcast exchange channel -/

/-- `ExchangeInfo_BroadcastInfo`: the declared fan-out count. -/
structure ExchangeInfo_BroadcastInfo where
  count : Nat
deriving DecidableEq, Repr

/-- The distribution descriptor, reduced to what `new_broadcast_channel`
reads: its broadcast info. -/
structure ExchangeInfo where
  broadcast_info : ExchangeInfo_BroadcastInfo
deriving DecidableEq, Repr

/-- One `mpsc` channel pair: the batches sent but not yet received, in send
order, and whether the receiving end is still alive. -/
structure MpscChan where
  queue : List DataChunk
  receiverAlive : Bool
deriving DecidableEq, Repr

/-- `BroadcastSender::send`: `try_for_each` over the senders in order — append
the chunk to each live channel, stop with an error at the first channel whose
receiver is gone. Channels visited before the failure keep the chunk;
channels at and after it are untouched. -/
def BroadcastSender.send (chunk : DataChunk) :
    List MpscChan → Except String Unit × List MpscChan
  | [] => (.ok (), [])
  | ch :: rest =>
    if ch.receiverAlive then
      let r := BroadcastSender.send chunk rest
      (r.1, { ch with queue := ch.queue ++ [chunk] } :: r.2)
    else (.error "chunk was sent to a closed channel", ch :: rest)

/-- `new_broadcast_channel`: one fresh channel per declared output; the one
sender holds them all, receiver `i` owns channel `i`. -/
def new_broadcast_channel (shuffle : ExchangeInfo) : List MpscChan :=
  List.replicate shuffle.broadcast_info.count ⟨[], true⟩

/-- `BroadcastReceiver::recv`: the next queued chunk when one exists; with an
empty queue, stream end (`none`, not an error) exactly when the sender has
been dropped, else a blocking wait (the outer `Option` is `none`). -/
def BroadcastReceiver.recv (senderAlive : Bool) (q : List DataChunk) :
    Option (Option DataChunk × List DataChunk) :=
  match q with
  | c :: rest => some (some c, rest)
  | [] => if senderAlive then none else some (none, [])

/-- Send a sequence of chunks one after another (production stops at the first
failing send, as the producer treats the error as "stop producing"). -/
def sendSeq : List DataChunk → List MpscChan → Except String Unit × List MpscChan
  | [], chans => (.ok (), chans)
  | c :: cs, chans =>
    match BroadcastSender.send c chans with
    | (.ok _, chans') => sendSeq cs chans'
    | (.error e, chans') => (.error e, chans')

/-- Pull from one receiver until it reports stream end; `none` when the
receiver would block or the fuel runs out first. -/
def drainReceiver : Nat → Bool → List DataChunk → Option (List DataChunk)
  | 0, _, _ => none
  | fuel + 1, senderAlive, q =>
    match BroadcastReceiver.recv senderAlive q with
    | none => none
    | some (none, _) => some []
    | some (some c, rest) => (drainReceiver fuel senderAlive rest).map (c :: ·)

/-! ### The extended decimal type -/

/-- `Decimal` of the memcomparable crate: an extended decimal with `NaN`,
`-Inf` and `Inf`; the payload of `Normalized` (`rust_decimal::Decimal`, an
external crate) stays a type parameter. -/
inductive Decimal (α : Type) where
  | NaN
  | NegInf
  | Normalized (v : α)
  | Inf
deriving DecidableEq, Repr

/-- The comparison `#[derive(PartialOrd, Ord)]` generates: variants compare by
declaration order (`NaN < NegInf < Normalized _ < Inf`), and two `Normalized`
payloads by the payload's own comparison. -/
def Decimal.cmp {α : Type} (cmpPayload : α → α → Ordering) :
    Decimal α → Decimal α → Ordering
  | .NaN, .NaN => .eq
  | .NaN, _ => .lt
  | _, .NaN => .gt
  | .NegInf, .NegInf => .eq
  | .NegInf, _ => .lt
  | _, .NegInf => .gt
  | .Normalized a, .Normalized b => cmpPayload a b
  | .Normalized _, _ => .lt
  | _, .Normalized _ => .gt
  | .Inf, .Inf => .eq

/-- `Decimal::from_str`: the three distinguished strings map to the three
extreme variants; every other string is delegated to the payload parser
(`s.parse()?`), its success wrapped in `Normalized`. -/
def Decimal.from_str {E α : Type} (parsePayload : String → Except E α)
    (s : String) : Except E (Decimal α) :=
  if s = "nan" then .ok .NaN
  else if s = "-inf" then .ok .NegInf
  else if s = "inf" then .ok .Inf
  else (parsePayload s).map .Normalized

/-! ### Concrete instances used by witnesses and counterexamples -/

/-- A single-row chunk whose first column (the order key) is `1` and whose
second column carries a distinguishing marker. -/
def markerChunk (marker : Int) : DataChunk :=
  ⟨[[some 1], [some marker]], none⟩

/-- Ascending order on column 0. -/
def pairs0 : List OrderPair := [⟨0, .Ascending⟩]

/-- A one-column one-row chunk holding `v`. -/
def oneChunk (v : Int) : DataChunk := ⟨[[some v]], none⟩

/-- An executor state that still holds collected batches (as one is left
behind after a completed execution). -/
def staleExecState : OrderByExecutor :=
  { freshExecutor pairs0 [] with
    chunks := [oneChunk 7]
    sorted_indices := [[0]]
    vis_indices := [1]
    first_execution := false }

/-! ### Basic lemmas about the comparator -/

theorem cmpInt_ne_gt_iff (x y : Int) : cmpInt x y ≠ .gt ↔ x ≤ y := by
  unfold cmpInt
  rcases lt_trichotomy x y with h | h | h
  · rw [if_pos h]; simp; omega
  · subst h; rw [if_neg (lt_irrefl x), if_pos rfl]; simp
  · rw [if_neg (by omega), if_neg (by omega)]; simp; omega

theorem cmpInt_swap (x y : Int) : cmpInt y x = (cmpInt x y).swap := by
  unfold cmpInt
  rcases lt_trichotomy x y with h | h | h
  · rw [if_neg (by omega), if_neg (by omega), if_pos h]; rfl
  · subst h
    rw [if_neg (lt_irrefl x), if_pos rfl]; rfl
  · rw [if_pos h, if_neg (by omega), if_neg (by omega)]; rfl

theorem cmpVal_swap (x y : Value) : cmpVal y x = (cmpVal x y).swap := by
  cases x <;> cases y <;> first | rfl | exact cmpInt_swap _ _

theorem cmpInt_eq_iff (x y : Int) : cmpInt x y = .eq ↔ x = y := by
  unfold cmpInt
  rcases lt_trichotomy x y with h | h | h
  · rw [if_pos h]; simp; omega
  · subst h; rw [if_neg (lt_irrefl x), if_pos rfl]; simp
  · rw [if_neg (by omega), if_neg (by omega)]; simp; omega

theorem cmpVal_eq_iff (x y : Value) : cmpVal x y = .eq ↔ x = y := by
  cases x <;> cases y <;> simp [cmpVal, cmpInt_eq_iff]

theorem cmpInt_trans {x y z : Int} (h1 : cmpInt x y ≠ .gt) (h2 : cmpInt y z ≠ .gt) :
    cmpInt x z ≠ .gt := by
  rw [cmpInt_ne_gt_iff] at h1 h2 ⊢; omega

theorem cmpVal_trans {x y z : Value} (h1 : cmpVal x y ≠ .gt) (h2 : cmpVal y z ≠ .gt) :
    cmpVal x z ≠ .gt := by
  cases x <;> cases y <;> cases z <;> simp_all [cmpVal] <;>
    exact cmpInt_trans h1 h2

theorem applyDir_swap (d : OrderType) (o : Ordering) :
    applyDir d o.swap = (applyDir d o).swap := by
  cases d <;> cases o <;> rfl

theorem applyDir_eq_iff (d : OrderType) (o : Ordering) :
    applyDir d o = .eq ↔ o = .eq := by
  cases d <;> cases o <;> simp [applyDir, Ordering.swap]

theorem cmpRows_swap (pairs : List OrderPair) (r1 r2 : List Value) :
    cmpRows pairs r2 r1 = (cmpRows pairs r1 r2).map Ordering.swap := by
  induction pairs with
  | nil => rfl
  | cons p rest ih =>
    simp only [cmpRows]
    cases h1 : r1.get? p.order with
    | none => cases h2 : r2.get? p.order <;> simp
    | some x =>
      cases h2 : r2.get? p.order with
      | none => simp
      | some y =>
        simp only
        rw [cmpVal_swap, applyDir_swap]
        cases hA : applyDir p.order_type (cmpVal x y) with
        | lt => rfl
        | gt => rfl
        | eq => simpa [Ordering.swap] using ih

/-! ### C10, C2, C9, C5, C6, C7 -/

/-- C10: the derived total order on the extended `Decimal` type places `NaN`
below `NegInf`, `NegInf` below every `Normalized` value and every `Normalized`
value below `Inf` (so `NaN` is the least element and `Inf` the greatest), and
`Decimal.from_str` maps exactly the strings "nan", "-inf", "inf" to `NaN`,
`NegInf`, `Inf`, delegating every other string to normalized decimal
parsing. -/
theorem decimal_cmp_from_str_spec {E α : Type} (cmpPayload : α → α → Ordering)
    (p : String → Except E α) :
    Decimal.cmp cmpPayload .NaN .NegInf = .lt ∧
    (∀ v : α, Decimal.cmp cmpPayload .NegInf (.Normalized v) = .lt) ∧
    (∀ v : α, Decimal.cmp cmpPayload (.Normalized v) .Inf = .lt) ∧
    (∀ d : Decimal α, Decimal.cmp cmpPayload .NaN d ≠ .gt) ∧
    (∀ d : Decimal α, Decimal.cmp cmpPayload d .Inf ≠ .gt) ∧
    Decimal.from_str p "nan" = .ok .NaN ∧
    Decimal.from_str p "-inf" = .ok .NegInf ∧
    Decimal.from_str p "inf" = .ok .Inf ∧
    (∀ s, s ≠ "nan" → s ≠ "-inf" → s ≠ "inf" →
      Decimal.from_str p s = (p s).map Decimal.Normalized) := by
  refine ⟨rfl, fun v => rfl, fun v => rfl, ?_, ?_, rfl, rfl, rfl, ?_⟩
  · intro d; cases d <;> simp [Decimal.cmp]
  · intro d; cases d <;> simp [Decimal.cmp]
  · intro s h1 h2 h3; simp [Decimal.from_str, h1, h2, h3]

/-- Witness for C10: the general statement applied at a concrete payload
parser and payload comparison. -/
theorem decimal_cmp_from_str_spec_witness :
    Decimal.from_str (fun s => if s = "1.5" then Except.ok (15 : Int) else .error "bad")
      "1.5" = .ok (.Normalized 15) ∧
    Decimal.cmp cmpInt .NaN .NegInf = .lt := by
  have h := decimal_cmp_from_str_spec cmpInt
    (fun s => if s = "1.5" then Except.ok (15 : Int) else .error "bad")
  refine ⟨?_, h.1⟩
  have h9 := h.2.2.2.2.2.2.2.2 "1.5" (by decide) (by decide) (by decide)
  rw [h9]; rfl

/-! ### Broadcast channel lemmas -/

theorem send_all_alive (c : DataChunk) (chans : List MpscChan)
    (h : ∀ ch ∈ chans, ch.receiverAlive = true) :
    BroadcastSender.send c chans =
      (.ok (), chans.map (fun ch => { ch with queue := ch.queue ++ [c] })) := by
  induction chans with
  | nil => rfl
  | cons ch rest ih =>
    have hch : ch.receiverAlive = true := h ch (by simp)
    have ihr := ih (fun x hx => h x (List.mem_cons_of_mem _ hx))
    simp [BroadcastSender.send, hch, ihr]

theorem sendSeq_all_alive (cs : List DataChunk) (chans : List MpscChan)
    (h : ∀ ch ∈ chans, ch.receiverAlive = true) :
    sendSeq cs chans =
      (.ok (), chans.map (fun ch => { ch with queue := ch.queue ++ cs })) := by
  induction cs generalizing chans with
  | nil =>
    have : chans.map (fun ch => { ch with queue := ch.queue ++ ([] : List DataChunk) }) = chans := by
      rw [show (fun ch : MpscChan => { ch with queue := ch.queue ++ ([] : List DataChunk) }) = id
        from funext (fun ch => by simp)]
      exact List.map_id chans
    rw [this]; rfl
  | cons c cs ih =>
    have halive : ∀ x ∈ chans.map (fun ch => { ch with queue := ch.queue ++ [c] }),
        x.receiverAlive = true := by
      intro x hx
      obtain ⟨a, ha, rfl⟩ := List.mem_map.mp hx
      exact h a ha
    simp only [sendSeq, send_all_alive c chans h]
    rw [ih _ halive, List.map_map]
    simp [Function.comp]

theorem drainReceiver_closed (q : List DataChunk) :
    drainReceiver (q.length + 1) false q = some q := by
  induction q with
  | nil => rfl
  | cons c rest ih =>
    have hstep : drainReceiver (rest.length + 1 + 1) false (c :: rest) =
        (drainReceiver (rest.length + 1) false rest).map (c :: ·) := rfl
    rw [List.length_cons, hstep, ih]
    rfl

theorem send_error_of_closed (c : DataChunk) (chans : List MpscChan)
    (h : ∃ ch ∈ chans, ch.receiverAlive = false) :
    ∃ e, (BroadcastSender.send c chans).1 = .error e := by
  induction chans with
  | nil => simp at h
  | cons ch rest ih =>
    by_cases ha : ch.receiverAlive = true
    · obtain ⟨x, hx, hxa⟩ := h
      rcases List.mem_cons.mp hx with rfl | hx
    
      · rw [ha] at hxa; cases hxa
      · obtain ⟨e, he⟩ := ih ⟨x, hx, hxa⟩
        exact ⟨e, by simp [BroadcastSender.send, ha, he]⟩
    · refine ⟨"chunk was sent to a closed channel", ?_⟩
      simp [BroadcastSender.send, ha]

/-! ### C2 and C9 -/

/-- C2: constructing a broadcast channel for fan-out `N ≥ 1` yields one
sender and exactly `N` receivers; after the sender transmits a sequence of
batches, every receiver's channel holds exactly that sequence in send order,
and, once the sender is dropped, a receiver draining its channel observes the
sequence followed by stream end — which `recv` reports exactly when the
sender is closed. -/
theorem broadcast_fidelity (N : Nat) (hN : 1 ≤ N) (cs : List DataChunk) :
    (new_broadcast_channel ⟨⟨N⟩⟩).length = N ∧
    sendSeq cs (new_broadcast_channel ⟨⟨N⟩⟩) =
      (.ok (), List.replicate N ⟨cs, true⟩) ∧
    (∀ ch ∈ (sendSeq cs (new_broadcast_channel ⟨⟨N⟩⟩)).2, ch.queue = cs) ∧
    (∀ q : List DataChunk, drainReceiver (q.length + 1) false q = some q) ∧
    (∀ sa : Bool, BroadcastReceiver.recv sa [] = some (none, []) ↔ sa = false) := by
  have halive : ∀ ch ∈ new_broadcast_channel ⟨⟨N⟩⟩, ch.receiverAlive = true := by
    intro ch hch
    have := List.eq_of_mem_replicate hch
    rw [this]
  have hsend := sendSeq_all_alive cs (new_broadcast_channel ⟨⟨N⟩⟩) halive
  have hmap : (new_broadcast_channel ⟨⟨N⟩⟩).map
      (fun ch => { ch with queue := ch.queue ++ cs }) = List.replicate N ⟨cs, true⟩ := by
    unfold new_broadcast_channel
    rw [List.map_replicate]
    simp
  refine ⟨List.length_replicate _ _, by rw [hsend, hmap], ?_, drainReceiver_closed, ?_⟩
  · intro ch hch
    rw [hsend, hmap] at hch
    rw [List.eq_of_mem_replicate hch]
  · intro sa
    cases sa <;> simp [BroadcastReceiver.recv]

/-- Witness for C2 at fan-out 2 and a two-batch sequence. -/
theorem broadcast_fidelity_witness :
    (new_broadcast_channel ⟨⟨2⟩⟩).length = 2 ∧
    sendSeq [oneChunk 1, oneChunk 2] (new_broadcast_channel ⟨⟨2⟩⟩) =
      (.ok (), List.replicate 2 ⟨[oneChunk 1, oneChunk 2], true⟩) := by
  have h := broadcast_fidelity 2 (by decide) [oneChunk 1, oneChunk 2]
  exact ⟨h.1, h.2.1⟩

/-- C9: broadcast delivery is not atomic: `send` walks the sender list in
order and stops at the first channel whose receiver is gone, so when it
returns an error every channel before the first closed one has received the
chunk and every channel from it on is untouched. -/
theorem broadcast_send_first_closed (c : DataChunk) (good : List MpscChan)
    (bad : MpscChan) (rest : List MpscChan)
    (hgood : ∀ ch ∈ good, ch.receiverAlive = true)
    (hbad : bad.receiverAlive = false) :
    (BroadcastSender.send c (good ++ bad :: rest)).1 =
      .error "chunk was sent to a closed channel" ∧
    (BroadcastSender.send c (good ++ bad :: rest)).2 =
      good.map (fun ch => { ch with queue := ch.queue ++ [c] }) ++ bad :: rest := by
  induction good with
  | nil => simp [BroadcastSender.send, hbad]
  | cons ch g ih =>
    have hch : ch.receiverAlive = true := hgood ch (by simp)
    have ihr := ih (fun x hx => hgood x (List.mem_cons_of_mem _ hx))
    simp [BroadcastSender.send, hch, ihr.1, ihr.2]

/-- Witness for C9: three receivers, the middle one closed — the first
receives the chunk, the second and third do not, and `send` errors. -/
theorem broadcast_send_first_closed_witness :
    (BroadcastSender.send (oneChunk 1) [⟨[], true⟩, ⟨[], false⟩, ⟨[], true⟩]).1 =
      .error "chunk was sent to a closed channel" ∧
    (BroadcastSender.send (oneChunk 1) [⟨[], true⟩, ⟨[], false⟩, ⟨[], true⟩]).2 =
      [⟨[oneChunk 1], true⟩, ⟨[], false⟩, ⟨[], true⟩] := by
  have h := broadcast_send_first_closed (oneChunk 1) [⟨[], true⟩] ⟨[], false⟩ [⟨[], true⟩]
    (by intro ch hch; simp at hch; rw [hch]) rfl
  constructor
  · simpa using h.1
  · simpa using h.2

/-! ### C5, C6, C7 -/

/-- C5: a plan descriptor whose node type is not `ORDER_BY`, whose child count
is not exactly one, or whose embedded ordering specification cannot be parsed
makes `new_boxed_executor` return a configuration error at construction
time. -/
theorem order_by_construction_error {χ : Type}
    (parseBody : List Nat → Except ExecError (List OrderPair))
    (buildChild : χ → Except ExecError (List DataChunk))
    (source : ExecutorBuilder χ)
    (h : source.node_type ≠ .ORDER_BY ∨ source.children.length ≠ 1 ∨
      ∃ e, parseBody source.body = .error e) :
    ∃ err, new_boxed_executor parseBody buildChild source = .error err := by
  unfold new_boxed_executor
  rcases h with h | h | ⟨e, he⟩
  · rw [if_pos h]; exact ⟨_, rfl⟩
  · by_cases h1 : source.node_type ≠ .ORDER_BY
    · rw [if_pos h1]; exact ⟨_, rfl⟩
    · rw [if_neg h1, if_pos h]; exact ⟨_, rfl⟩
  · by_cases h1 : source.node_type ≠ .ORDER_BY
    · rw [if_pos h1]; exact ⟨_, rfl⟩
    · by_cases h2 : source.children.length ≠ 1
      · rw [if_neg h1, if_pos h2]; exact ⟨_, rfl⟩
      · rw [if_neg h1, if_neg h2, he]; exact ⟨.ProtobufError, rfl⟩

/-- Witness for C5: a descriptor with the wrong node type is refused. -/
theorem order_by_construction_error_witness :
    ∃ err, new_boxed_executor (χ := Unit) (fun _ => .ok []) (fun _ => .ok [])
      ⟨.SEQ_SCAN, [], []⟩ = .error err :=
  order_by_construction_error _ _ _ (Or.inl (by decide))

/-- C6: a pair of rows whose comparison under the order keys fails to
evaluate is treated as equal (`Ordering::Equal`) by the local sort comparator,
in both directions, and the local sort still produces a permutation of the
chunk's row indices instead of aborting with an error. -/
theorem comparator_failure_equal (pairs : List OrderPair) (c : DataChunk) (ia ib : Nat)
    (h : compare_two_row pairs c ia c ib = none) :
    localOrd pairs c ia ib = .eq ∧ localOrd pairs c ib ia = .eq ∧
    localOrdLe pairs c ia ib ∧ localOrdLe pairs c ib ia ∧
    (get_order_index_from pairs c).Perm (List.range c.cardinality) := by
  have h2 : compare_two_row pairs c ib c ia = none := by
    unfold compare_two_row at h ⊢
    rw [cmpRows_swap pairs (c.rowAt ia) (c.rowAt ib), h]
    rfl
  refine ⟨by simp [localOrd, h], by simp [localOrd, h2], ?_, ?_, ?_⟩
  · simp [localOrdLe, localOrd, h]
  · simp [localOrdLe, localOrd, h2]
  · simpa [get_order_index_from] using
      List.perm_insertionSort (localOrdLe pairs c) (List.range c.cardinality)

/-- Witness for C6: a key bound to a column position the chunk does not have
fails to evaluate, and the comparator yields equality. -/
theorem comparator_failure_equal_witness :
    compare_two_row [⟨5, OrderType.Ascending⟩] (oneChunk 1) 0 (oneChunk 1) 0 = none ∧
    localOrd [⟨5, OrderType.Ascending⟩] (oneChunk 1) 0 0 = .eq := by
  have h : compare_two_row [⟨5, OrderType.Ascending⟩] (oneChunk 1) 0 (oneChunk 1) 0 = none := by
    decide
  exact ⟨h, (comparator_failure_equal _ _ _ _ h).1⟩

/-- C7 counterexample: `init` on an executor that still holds collected
batches does not clear them — the internal state is not reset, contrary to
the claim. -/
theorem order_by_init_not_reset :
    (staleExecState.init).chunks ≠ [] ∧
    (staleExecState.init).sorted_indices ≠ [] ∧
    (staleExecState.init).vis_indices ≠ [] := by
  refine ⟨?_, ?_, ?_⟩ <;> decide

/-- C7 (amended): after `init`, `first_execution` is reset to true and
initialization is propagated to the child, but the collected chunks, sorted
index permutations, cursor vector, min-heap, order pairs and data types are
left exactly as they were — the state is fully reset only when it was already
empty (as right after construction). -/
theorem order_by_init_spec (s : OrderByExecutor) :
    (s.init).first_execution = true ∧ (s.init).child.inited = true ∧
    (s.init).child.stream = s.child.stream ∧
    (s.init).chunks = s.chunks ∧
    (s.init).sorted_indices = s.sorted_indices ∧
    (s.init).vis_indices = s.vis_indices ∧
    (s.init).min_heap = s.min_heap ∧
    (s.init).order_pairs = s.order_pairs ∧
    (s.init).data_types = s.data_types :=
  ⟨rfl, rfl, rfl, rfl, rfl, rfl, rfl, rfl, rfl⟩

/-! ### C8: idempotent termination, and channel termination signals -/

theorem BinaryHeap.pop_none_iff (le : α → α → Bool) (h : BinaryHeap α) :
    h.pop le = none ↔ h.size = 0 := by
  unfold BinaryHeap.pop
  split <;> simp_all

theorem mergeLoop_of_size_zero (pairs : List OrderPair) (chunks : List DataChunk)
    (sortedI : List (List Nat)) (fuel : Nat) (hp : BinaryHeap HeapElem)
    (vis : List Nat) (h : hp.size = 0) :
    mergeLoop pairs chunks sortedI fuel hp vis = ([], hp, vis) := by
  cases fuel with
  | zero => rfl
  | succ f => simp [mergeLoop, BinaryHeap.pop, h]

theorem mergeLoop_nil_size (pairs : List OrderPair) (chunks : List DataChunk)
    (sortedI : List (List Nat)) (fuel : Nat) (hp : BinaryHeap HeapElem)
    (vis : List Nat)
    (h : (mergeLoop pairs chunks sortedI (fuel + 1) hp vis).1 = []) :
    hp.size = 0 := by
  by_contra hs
  simp [mergeLoop, BinaryHeap.pop, hs] at h

theorem executeMerge_of_empty {s1 : OrderByExecutor} (h : s1.min_heap.size = 0) :
    executeMerge s1 = some (.Done, s1) := by
  unfold executeMerge
  rw [mergeLoop_of_size_zero _ _ _ _ _ _ h]
  rfl

theorem mapM_option_length {α β : Type} (f : α → Option β) :
    ∀ (l : List α) (rows : List β), l.mapM f = some rows → rows.length = l.length := by
  intro l
  induction l with
  | nil =>
    intro rows h
    rw [List.mapM_nil] at h
    cases h
    rfl
  | cons a l ih =>
    intro rows h
    rw [List.mapM_cons] at h
    rcases hf : f a with _ | b
    · rw [hf] at h; cases h
    · rw [hf] at h
      rcases hl : l.mapM f with _ | bs
      · rw [hl] at h; cases h
      · rw [hl] at h
        cases h
        simp [ih bs hl]

theorem executeMerge_done {s1 s2 : OrderByExecutor}
    (h : executeMerge s1 = some (.Done, s2)) :
    s2 = s1 ∧ s1.min_heap.size = 0 := by
  rcases hl : (mergeLoop s1.order_pairs s1.chunks s1.sorted_indices
      K_PROCESSING_WINDOW_SIZE s1.min_heap s1.vis_indices).1 with _ | ⟨e, es⟩
  · have hsize : s1.min_heap.size = 0 := by
      have hK : K_PROCESSING_WINDOW_SIZE = 1023 + 1 := rfl
      rw [hK] at hl
      exact mergeLoop_nil_size _ _ _ _ _ _ hl
    have he := executeMerge_of_empty hsize
    rw [he] at h
    simp at h
    exact ⟨h.symm, hsize⟩
  · exfalso
    simp only [executeMerge] at h
    rw [hl] at h
    rcases hm : (e :: es).mapM (buildRow s1.data_types s1.chunks) with _ | rows
    · rw [hm] at h; cases h
    · rw [hm] at h
      have hlen := mapM_option_length _ _ _ hm
      cases rows with
      | nil => simp at hlen
      | cons r rs => simp at h

theorem execute_done_state {s s' : OrderByExecutor}
    (h : s.execute = some (.Done, s')) :
    s'.execute = some (.Done, s') := by
  unfold OrderByExecutor.execute at h
  have key : ∀ s1 : OrderByExecutor, executeMerge s1 = some (.Done, s') →
      s1.first_execution = false → s'.execute = some (.Done, s') := by
    intro s1 hm hf
    obtain ⟨rfl, hsize⟩ := executeMerge_done hm
    unfold OrderByExecutor.execute
    rw [hf]
    simpa using executeMerge_of_empty hsize
  by_cases hfe : s.first_execution
  · rw [if_pos hfe] at h
    rcases hfd : fill_data_types (collect_child_data s) with _ | t
    · rw [hfd] at h; cases h
    · rw [hfd] at h
      simp only [Option.map_some'] at h
      exact key _ h rfl
  · rw [if_neg hfe] at h
    exact key _ h (by simpa using hfe)

/-- C8: once `execute` has signalled stream end, every later `execute` on the
same state also signals stream end (and leaves the state unchanged);
`BroadcastSender::send` returns an error when at least one receiver's channel
is closed; and `BroadcastReceiver::recv` after the sender is dropped reports
stream end as an empty optional, not as an error. -/
theorem done_idempotent_and_channel_end :
    (∀ s s' : OrderByExecutor, s.execute = some (.Done, s') →
      s'.execute = some (.Done, s')) ∧
    (∀ (c : DataChunk) (chans : List MpscChan),
      (∃ ch ∈ chans, ch.receiverAlive = false) →
      ∃ e, (BroadcastSender.send c chans).1 = .error e) ∧
    BroadcastReceiver.recv false [] = some (none, []) :=
  ⟨fun _ _ h => execute_done_state h, send_error_of_closed, rfl⟩

/-- Witness for C8: a drained executor stays `Done`, and a send to a list
with one closed channel errors. -/
theorem done_idempotent_and_channel_end_witness :
    staleExecState.execute = some (.Done, staleExecState) ∧
    (∃ e, (BroadcastSender.send (oneChunk 1) [⟨[], false⟩]).1 = .error e) := by
  have h := done_idempotent_and_channel_end
  exact ⟨h.1 staleExecState staleExecState rfl,
    h.2.1 (oneChunk 1) [⟨[], false⟩] ⟨⟨[], false⟩, by simp, rfl⟩⟩

/-! ### Binary heap lemmas: sizes and contents -/

theorem set_getElem_self {α : Type} (l : List α) (i : Nat) (hi : i < l.length) :
    l.set i l[i] = l := by
  apply List.ext_getElem
  · simp
  · intro n h1 h2
    rw [List.getElem_set]
    split
    · rename_i hin
      subst hin
      rfl
    · rfl

theorem set_set_perm {α : Type} [DecidableEq α] (l : List α) {i j : Nat}
    (hi : i < l.length) (hj : j < l.length) :
    ((l.set i l[j]).set j l[i]).Perm l := by
  rcases eq_or_ne i j with rfl | hij
  · rw [List.set_set, set_getElem_self]
  · rw [List.perm_iff_count]
    intro x
    have hlen1 : j < (l.set i l[j]).length := by simpa using hj
    rw [List.count_set _ _ _ _ hlen1, List.count_set _ _ _ _ hi]
    have hgj : (l.set i l[j])[j] = l[j] := by
      rw [List.getElem_set, if_neg hij]
    rw [hgj]
    have hci : (l[i] == x) = true → 1 ≤ l.count x := by
      intro hb
      have hx : l[i] = x := eq_of_beq hb
      have hmem : x ∈ l := hx ▸ List.getElem_mem hi
      exact List.count_pos_iff.mpr hmem
    by_cases hbi : (l[i] == x) = true
    · have h1 := hci hbi
      by_cases hbj : (l[j] == x) = true <;> simp [hbi, hbj] <;> omega
    · by_cases hbj : (l[j] == x) = true <;> simp [hbi, hbj] <;> omega

namespace BinaryHeap

variable {α : Type} {le : α → α → Bool} {P : α → Prop}

theorem swap_size (h : BinaryHeap α) (i j : Nat) : (h.swap i j).size = h.size := rfl

theorem swap_data (h : BinaryHeap α) (i j k : Nat) :
    (h.swap i j).data k =
      if k = j then h.data i else if k = i then h.data j else h.data k := rfl

theorem siftUpF_size (fuel : Nat) : ∀ (h : BinaryHeap α) (pos : Nat),
    (siftUpF le fuel h pos).size = h.size := by
  induction fuel with
  | zero => intro h pos; rfl
  | succ f ih =>
    intro h pos
    simp only [siftUpF]
    split
    · rfl
    · split
      · rfl
      · exact ih _ _

theorem sdtbLoop_size (fuel : Nat) : ∀ (h : BinaryHeap α) (pos : Nat),
    (sdtbLoop le fuel h pos).1.size = h.size := by
  induction fuel with
  | zero => intro h pos; rfl
  | succ f ih =>
    intro h pos
    simp only [sdtbLoop]
    split
    · exact ih _ _
    · split
      · rfl
      · rfl

theorem siftDownToBottom_size (h : BinaryHeap α) :
    (siftDownToBottom le h).size = h.size := by
  unfold siftDownToBottom siftUp
  rw [siftUpF_size, sdtbLoop_size]

theorem push_size (h : BinaryHeap α) (x : α) : (h.push le x).size = h.size + 1 := by
  unfold push siftUp
  rw [siftUpF_size]

theorem contents_length (h : BinaryHeap α) : (contents h).length = h.size := by
  simp [contents]

theorem contents_getElem (h : BinaryHeap α) (k : Nat) {hk : k < (contents h).length} :
    (contents h)[k] = h.data k := by
  unfold contents at hk ⊢
  rw [List.getElem_map, List.getElem_range]

theorem mem_contents {h : BinaryHeap α} {x : α} :
    x ∈ contents h ↔ ∃ i, i < h.size ∧ h.data i = x := by
  unfold contents
  simp [List.mem_map, List.mem_range]

theorem contents_swap_eq (h : BinaryHeap α) {i j : Nat} (hi : i < h.size) (hj : j < h.size) :
    contents (h.swap i j) = ((contents h).set i (h.data j)).set j (h.data i) := by
  apply List.ext_getElem
  · simp [contents, swap]
  · intro n h1 h2
    have hn : n < h.size := by
      have := h1
      rw [contents_length] at this
      exact this
    rw [contents_getElem, swap_data, List.getElem_set, List.getElem_set,
      contents_getElem]
    by_cases hnj : n = j
    · subst hnj
      simp
    · have hjn : j ≠ n := fun hh => hnj hh.symm
      by_cases hni : n = i
      · subst hni
        simp [hnj, hjn]
      · have hin : i ≠ n := fun hh => hni hh.symm
        simp [hnj, hni, hjn, hin]

theorem contents_swap_perm [DecidableEq α] (h : BinaryHeap α) {i j : Nat}
    (hi : i < h.size) (hj : j < h.size) :
    (contents (h.swap i j)).Perm (contents h) := by
  rw [contents_swap_eq h hi hj]
  have hi' : i < (contents h).length := by rw [contents_length]; exact hi
  have hj' : j < (contents h).length := by rw [contents_length]; exact hj
  have e1 : h.data j = (contents h)[j] := (contents_getElem h j).symm
  have e2 : h.data i = (contents h)[i] := (contents_getElem h i).symm
  rw [e1, e2]
  exact set_set_perm _ hi' hj'

theorem siftUpF_contents [DecidableEq α] (fuel : Nat) :
    ∀ (h : BinaryHeap α) (pos : Nat), pos < h.size →
    (contents (siftUpF le fuel h pos)).Perm (contents h) := by
  induction fuel with
  | zero => intro h pos _; exact List.Perm.refl _
  | succ f ih =>
    intro h pos hpos
    simp only [siftUpF]
    split
    · exact List.Perm.refl _
    · rename_i hne
      split
      · exact List.Perm.refl _
      · have hpp : (pos - 1) / 2 < pos := by omega
        have hpar : (pos - 1) / 2 < h.size := lt_trans hpp hpos
        have hrec := ih (h.swap pos ((pos - 1) / 2)) ((pos - 1) / 2)
          (by rw [swap_size]; exact hpar)
        exact hrec.trans (contents_swap_perm h hpos hpar)

theorem sdtbLoop_contents_pos [DecidableEq α] (fuel : Nat) :
    ∀ (h : BinaryHeap α) (pos : Nat), pos < h.size →
    (contents (sdtbLoop le fuel h pos).1).Perm (contents h) ∧
    (sdtbLoop le fuel h pos).2 < h.size := by
  induction fuel with
  | zero => intro h pos hpos; exact ⟨List.Perm.refl _, hpos⟩
  | succ f ih =>
    intro h pos hpos
    simp only [sdtbLoop]
    split
    · rename_i hlt
      have hC : (if le (h.data (2 * pos + 1)) (h.data (2 * pos + 1 + 1))
          then 2 * pos + 1 + 1 else 2 * pos + 1) < h.size := by
        split <;> omega
      have hrec := ih
        (h.swap pos (if le (h.data (2 * pos + 1)) (h.data (2 * pos + 1 + 1))
          then 2 * pos + 1 + 1 else 2 * pos + 1))
        (if le (h.data (2 * pos + 1)) (h.data (2 * pos + 1 + 1))
          then 2 * pos + 1 + 1 else 2 * pos + 1)
        (by rw [swap_size]; exact hC)
      exact ⟨hrec.1.trans (contents_swap_perm h hpos hC), hrec.2⟩
    · split
      · rename_i hge hlt2
        exact ⟨contents_swap_perm h hpos hlt2, hlt2⟩
      · exact ⟨List.Perm.refl _, hpos⟩

theorem siftDownToBottom_contents [DecidableEq α] (h : BinaryHeap α) :
    (contents (siftDownToBottom le h)).Perm (contents h) := by
  unfold siftDownToBottom
  rcases Nat.eq_zero_or_pos h.size with hz | hpos
  · have hloop : sdtbLoop le h.size h 0 = (h, 0) := by
      rw [hz]; rfl
    rw [hloop]
    unfold siftUp
    exact List.Perm.refl _
  · have hl : (contents (sdtbLoop le h.size h 0).1).Perm (contents h) ∧
        (sdtbLoop le h.size h 0).2 < h.size :=
      sdtbLoop_contents_pos h.size h 0 hpos
    have hs2 : (sdtbLoop le h.size h 0).2 < (sdtbLoop le h.size h 0).1.size := by
      rw [sdtbLoop_size]; exact hl.2
    unfold siftUp
    exact (siftUpF_contents _ _ _ hs2).trans hl.1

theorem contents_push [DecidableEq α] (h : BinaryHeap α) (x : α) :
    (contents (h.push le x)).Perm (x :: contents h) := by
  unfold push siftUp
  have hext : contents { size := h.size + 1, data := upd h.data h.size x } =
      contents h ++ [x] := by
    unfold contents
    rw [List.range_succ, List.map_append]
    have h1 : (List.range h.size).map (upd h.data h.size x) =
        (List.range h.size).map h.data := by
      apply List.map_congr_left
      intro k hk
      have : k ≠ h.size := by
        have := List.mem_range.mp hk
        omega
      simp [upd, this]
    rw [h1]
    simp [upd]
  have hp : (contents (siftUpF le h.size
      { size := h.size + 1, data := upd h.data h.size x } h.size)).Perm
      (contents { size := h.size + 1, data := upd h.data h.size x }) :=
    siftUpF_contents h.size
      { size := h.size + 1, data := upd h.data h.size x } h.size (Nat.lt_succ_self _)
  rw [hext] at hp
  exact hp.trans (List.perm_append_singleton _ _)

theorem contents_shrink [DecidableEq α] (h : BinaryHeap α) (n : Nat) (hn : h.size = n + 1) :
    (contents h).Perm
      (h.data 0 :: contents { size := n, data := upd h.data 0 (h.data n) }) := by
  cases n with
  | zero =>
    have e1 : contents h = [h.data 0] := by
      unfold contents
      rw [hn]
      rfl
    have e2 : contents { size := 0, data := upd h.data 0 (h.data 0) } = ([] : List α) := rfl
    rw [e1, e2]
  | succ m =>
    have e1 : contents h =
        h.data 0 :: ((List.range m).map (fun k => h.data (k + 1)) ++ [h.data (m + 1)]) := by
      unfold contents
      rw [hn, List.range_succ_eq_map, List.map_cons, List.map_map, List.range_succ,
        List.map_append]
      simp [Function.comp, Nat.succ_eq_add_one]
    have e2 : contents { size := m + 1, data := upd h.data 0 (h.data (m + 1)) } =
        h.data (m + 1) :: (List.range m).map (fun k => h.data (k + 1)) := by
      unfold contents
      rw [List.range_succ_eq_map, List.map_cons, List.map_map]
      have hhead : ({ size := m + 1, data := upd h.data 0 (h.data (m + 1)) } :
          BinaryHeap α).data 0 = h.data (m + 1) := rfl
      rw [hhead]
      have htail : ({ size := m + 1, data := upd h.data 0 (h.data (m + 1)) } :
          BinaryHeap α).data ∘ Nat.succ = fun k => h.data (k + 1) := by
        funext k
        simp [upd, Function.comp, Nat.succ_eq_add_one]
      rw [htail]
    rw [e1, e2]
    exact List.Perm.cons _ (List.perm_append_singleton _ _)

theorem pop_spec [DecidableEq α] (h : BinaryHeap α) (hs : h.size ≠ 0) :
    ∃ h' : BinaryHeap α, h.pop le = some (h.data 0, h') ∧
      h'.size + 1 = h.size ∧
      (contents h).Perm (h.data 0 :: contents h') := by
  have hpop : h.pop le = some (h.data 0, siftDownToBottom le
      { size := h.size - 1, data := upd h.data 0 (h.data (h.size - 1)) }) := by
    unfold pop
    rw [if_neg hs]
  refine ⟨_, hpop, ?_, ?_⟩
  · rw [siftDownToBottom_size]
    show h.size - 1 + 1 = h.size
    omega
  · have hshr := contents_shrink h (h.size - 1) (by omega)
    exact hshr.trans (List.Perm.cons _ (siftDownToBottom_contents _).symm)

theorem allP_iff_mem {h : BinaryHeap α} : AllP P h ↔ ∀ x ∈ contents h, P x := by
  unfold AllP
  constructor
  · intro ha x hx
    obtain ⟨i, hi, rfl⟩ := mem_contents.mp hx
    exact ha i hi
  · intro hm i hi
    exact hm _ (mem_contents.mpr ⟨i, hi, rfl⟩)

theorem allP_swap (h : BinaryHeap α) {i j : Nat} (hi : i < h.size) (hj : j < h.size)
    (hall : AllP P h) : AllP P (h.swap i j) := by
  intro k hk
  rw [swap_size] at hk
  rw [swap_data]
  split
  · exact hall i hi
  · split
    · exact hall j hj
    · exact hall k hk

theorem siftUpF_isHeap
    (htot : ∀ a b : α, le a b = true ∨ le b a = true)
    (htr : ∀ a b c : α, P a → P b → P c → le a b = true → le b c = true → le a c = true)
    (fuel : Nat) :
    ∀ (h : BinaryHeap α) (pos : Nat), pos < h.size → pos ≤ fuel →
      AllP P h → UpInv le h pos → IsHeap le (siftUpF le fuel h pos) := by
  induction fuel with
  | zero =>
    intro h pos hpos hfl hall hinv
    have hp0 : pos = 0 := by omega
    subst hp0
    intro i hi0 hisz
    exact hinv.1 i hi0 hisz (by omega)
  | succ f ih =>
    intro h pos hpos hfl hall hinv
    simp only [siftUpF]
    split
    · rename_i hp0
      subst hp0
      intro i hi0 hisz
      exact hinv.1 i hi0 hisz (by omega)
    · rename_i hp0
      have hpos0 : 0 < pos := by omega
      split
      · rename_i hle2
        intro i hi0 hisz
        by_cases hip : i = pos
        · subst hip; exact hle2
        · exact hinv.1 i hi0 hisz hip
      · rename_i hgt
        have hqlt : (pos - 1) / 2 < pos := by omega
        have hqsz : (pos - 1) / 2 < h.size := lt_trans hqlt hpos
        have hqp : le (h.data ((pos - 1) / 2)) (h.data pos) = true :=
          (htot (h.data pos) (h.data ((pos - 1) / 2))).resolve_left hgt
        apply ih
        · rw [swap_size]; exact hqsz
        · omega
        · exact allP_swap h hpos hqsz hall
        · constructor
          · -- edges except the one from the new position up
            intro i hi0 hisz hiq
            rw [swap_size] at hisz
            rw [swap_data, swap_data]
            by_cases hip : i = pos
            · subst hip
              rw [if_neg (fun hh => hiq hh), if_pos rfl, if_pos rfl]
              exact hqp
            · rw [if_neg hiq, if_neg hip]
              by_cases hpi_pos : (i - 1) / 2 = pos
              · rw [hpi_pos, if_neg (by omega : ¬pos = (pos - 1) / 2), if_pos rfl]
                exact hinv.2 hpos0 i hisz hpi_pos
              · by_cases hpi_q : (i - 1) / 2 = (pos - 1) / 2
                · rw [hpi_q, if_pos rfl]
                  have h1 : le (h.data i) (h.data ((i - 1) / 2)) = true :=
                    hinv.1 i hi0 hisz hip
                  rw [hpi_q] at h1
                  exact htr _ _ _ (hall i hisz) (hall _ hqsz) (hall pos hpos) h1 hqp
                · rw [if_neg hpi_q, if_neg hpi_pos]
                  exact hinv.1 i hi0 hisz hip
          · -- children of the new position vs its parent
            intro hq0 c hcsz hcq
            rw [swap_size] at hcsz
            have hc_gt : (pos - 1) / 2 < c := by omega
            have hc0 : 0 < c := by omega
            have hgg : (((pos - 1) / 2) - 1) / 2 < (pos - 1) / 2 := by omega
            rw [swap_data, swap_data]
            rw [if_neg (by omega : ¬(((pos - 1) / 2 - 1) / 2 = (pos - 1) / 2)),
              if_neg (by omega : ¬(((pos - 1) / 2 - 1) / 2 = pos))]
            by_cases hcp : c = pos
            · subst hcp
              rw [if_neg (by omega), if_pos rfl]
              exact hinv.1 _ hq0 hqsz (by omega)
            · rw [if_neg (by omega : ¬c = (pos - 1) / 2), if_neg hcp]
              have h1 : le (h.data c) (h.data ((c - 1) / 2)) = true :=
                hinv.1 c hc0 hcsz hcp
              rw [hcq] at h1
              have h2 : le (h.data ((pos - 1) / 2)) (h.data ((((pos - 1) / 2) - 1) / 2)) = true :=
                hinv.1 _ hq0 hqsz (by omega)
              exact htr _ _ _ (hall c hcsz) (hall _ hqsz)
                (hall _ (lt_trans (lt_trans hgg hqlt) hpos)) h1 h2

theorem sdtbLoop_upInv
    (htot : ∀ a b : α, le a b = true ∨ le b a = true)
    (fuel : Nat) :
    ∀ (h : BinaryHeap α) (pos : Nat), pos < h.size → h.size - pos ≤ fuel →
      AllP P h → DownInv le h pos →
      UpInv le (sdtbLoop le fuel h pos).1 (sdtbLoop le fuel h pos).2 ∧
      AllP P (sdtbLoop le fuel h pos).1 ∧
      (sdtbLoop le fuel h pos).2 < (sdtbLoop le fuel h pos).1.size := by
  induction fuel with
  | zero =>
    intro h pos hpos hfl
    omega
  | succ f ih =>
    intro h pos hpos hfl hall hdown
    simp only [sdtbLoop]
    split
    · rename_i hboth
      set c := if le (h.data (2 * pos + 1)) (h.data (2 * pos + 1 + 1))
        then 2 * pos + 1 + 1 else 2 * pos + 1 with hcdef
      have hcsz : c < h.size := by rw [hcdef]; split <;> omega
      have hcpos : pos < c := by rw [hcdef]; split <;> omega
      have hcparent : (c - 1) / 2 = pos := by rw [hcdef]; split <;> omega
      have hmax : ∀ d, 0 < d → d < h.size → (d - 1) / 2 = pos →
          le (h.data d) (h.data c) = true := by
        intro d hd0 hdsz hdp
        have hd : d = 2 * pos + 1 ∨ d = 2 * pos + 2 := by omega
        rcases hle : le (h.data (2 * pos + 1)) (h.data (2 * pos + 1 + 1)) with _ | _
        · have hc_eq : c = 2 * pos + 1 := by simp [hcdef, hle]
          rw [hc_eq]
          rcases hd with rfl | rfl
          · exact (htot _ _).elim id id
          · have h21 : 2 * pos + 2 = 2 * pos + 1 + 1 := by omega
            rw [h21]
            exact (htot (h.data (2 * pos + 1 + 1)) (h.data (2 * pos + 1))).resolve_right
              (by simp [hle])
        · have hc_eq : c = 2 * pos + 1 + 1 := by simp [hcdef, hle]
          rw [hc_eq]
          rcases hd with rfl | rfl
          · exact hle
          · have h21 : 2 * pos + 2 = 2 * pos + 1 + 1 := by omega
            rw [h21]
            exact (htot _ _).elim id id
      apply ih
      · rw [swap_size]; exact hcsz
      · rw [swap_size]; omega
      · exact allP_swap h hpos hcsz hall
      · constructor
        · intro i hi0 hisz hic hpic
          rw [swap_size] at hisz
          rw [swap_data, swap_data, if_neg hic, if_neg hpic]
          by_cases hip : i = pos
          · subst hip
            rw [if_pos rfl, if_neg (by omega : ¬(i - 1) / 2 = i)]
            exact hdown.2 hi0 c hcsz hcparent
          · rw [if_neg hip]
            by_cases hpi : (i - 1) / 2 = pos
            · rw [if_pos hpi]
              exact hmax i hi0 hisz hpi
            · rw [if_neg hpi]
              exact hdown.1 i hi0 hisz hip hpi
        · intro hc0 e hesz hep
          rw [swap_size] at hesz
          have he_gt : c < e := by omega
          rw [swap_data, swap_data, hcparent,
            if_neg (by omega : ¬e = c), if_neg (by omega : ¬e = pos),
            if_neg (by omega : ¬pos = c), if_pos rfl]
          have h1 := hdown.1 e (by omega) hesz (by omega) (by omega)
          rw [hep] at h1
          exact h1
    · split
      · rename_i hnb hl
        constructor
        · constructor
          · intro i hi0 hisz hic
            rw [swap_size] at hisz
            rw [swap_data, swap_data, if_neg hic]
            by_cases hip : i = pos
            · subst hip
              rw [if_pos rfl,
                if_neg (by omega : ¬(i - 1) / 2 = 2 * i + 1),
                if_neg (by omega : ¬(i - 1) / 2 = i)]
              exact hdown.2 hi0 (2 * i + 1) hl (by omega)
            · rw [if_neg hip]
              have hnpi : (i - 1) / 2 ≠ pos := by omega
              have hnpc : (i - 1) / 2 ≠ 2 * pos + 1 := by omega
              rw [if_neg hnpc, if_neg hnpi]
              exact hdown.1 i hi0 hisz hip hnpi
          · intro hc0 e hesz hep
            rw [swap_size] at hesz
            exfalso
            omega
        · exact ⟨allP_swap h hpos hl hall, by rw [swap_size]; exact hl⟩
      · rename_i hnb hnl
        dsimp only
        refine ⟨⟨?_, ?_⟩, hall, hpos⟩
        · intro i hi0 hisz hip
          have hnpi : (i - 1) / 2 ≠ pos := by omega
          exact hdown.1 i hi0 hisz hip hnpi
        · intro hp0 e hesz hep
          exfalso
          omega

theorem push_isHeap
    (htot : ∀ a b : α, le a b = true ∨ le b a = true)
    (htr : ∀ a b c : α, P a → P b → P c → le a b = true → le b c = true → le a c = true)
    (h : BinaryHeap α) (x : α)
    (hheap : IsHeap le h) (hall : AllP P h) (hx : P x) :
    IsHeap le (h.push le x) := by
  unfold push siftUp
  apply siftUpF_isHeap htot htr
  · exact Nat.lt_succ_self _
  · exact le_refl _
  · intro i hi
    have hi' : i < h.size + 1 := hi
    show P (upd h.data h.size x i)
    unfold upd
    split
    · exact hx
    · rename_i hne
      exact hall i (by omega)
  · constructor
    · intro i hi0 hisz hine
      have hi' : i < h.size + 1 := hisz
      have hilt : i < h.size := by
        rcases Nat.lt_succ_iff_lt_or_eq.mp hi' with hh | hh
        · exact hh
        · exact absurd hh hine
      show le (upd h.data h.size x i) (upd h.data h.size x ((i - 1) / 2)) = true
      unfold upd
      rw [if_neg (by omega : ¬i = h.size), if_neg (by omega : ¬(i - 1) / 2 = h.size)]
      exact hheap i hi0 hilt
    · intro hp0 c hc hcp
      exfalso
      have hc' : c < h.size + 1 := hc
      omega

theorem pop_eq_some {h : BinaryHeap α} {v : α} {h' : BinaryHeap α}
    (hpop : h.pop le = some (v, h')) :
    h.size ≠ 0 ∧ v = h.data 0 ∧
      h' = siftDownToBottom le
        { size := h.size - 1, data := upd h.data 0 (h.data (h.size - 1)) } := by
  unfold pop at hpop
  split at hpop
  · cases hpop
  · rename_i hs
    rw [Option.some.injEq, Prod.mk.injEq] at hpop
    exact ⟨hs, hpop.1.symm, hpop.2.symm⟩

theorem pop_isHeap
    (htot : ∀ a b : α, le a b = true ∨ le b a = true)
    (htr : ∀ a b c : α, P a → P b → P c → le a b = true → le b c = true → le a c = true)
    {h h' : BinaryHeap α} {v : α}
    (hpop : h.pop le = some (v, h')) (hheap : IsHeap le h) (hall : AllP P h) :
    IsHeap le h' := by
  obtain ⟨hs, hv, rfl⟩ := pop_eq_some hpop
  set h2 : BinaryHeap α :=
    { size := h.size - 1, data := upd h.data 0 (h.data (h.size - 1)) } with hh2
  have hall2 : AllP P h2 := by
    intro i hi
    have hi' : i < h.size - 1 := hi
    show P (upd h.data 0 (h.data (h.size - 1)) i)
    unfold upd
    split
    · exact hall _ (by omega)
    · exact hall i (by omega)
  rcases Nat.eq_zero_or_pos h2.size with hz | hp2
  · intro i hi0 hisz
    rw [siftDownToBottom_size, hz] at hisz
    omega
  · have hdown : DownInv le h2 0 := by
      constructor
      · intro i hi0 hisz hip hpip
        have hisz' : i < h.size - 1 := hisz
        show le (upd h.data 0 (h.data (h.size - 1)) i)
          (upd h.data 0 (h.data (h.size - 1)) ((i - 1) / 2)) = true
        unfold upd
        rw [if_neg (by omega : ¬i = 0), if_neg hpip]
        exact hheap i hi0 (by omega)
      · intro hp0
        omega
    unfold siftDownToBottom
    have hloop := sdtbLoop_upInv (P := P) htot h2.size h2 0 hp2 (by omega) hall2 hdown
    unfold siftUp
    exact siftUpF_isHeap htot htr _ _ _ hloop.2.2 (le_refl _) hloop.2.1 hloop.1

theorem isHeap_le_root
    (htot : ∀ a b : α, le a b = true ∨ le b a = true)
    (htr : ∀ a b c : α, P a → P b → P c → le a b = true → le b c = true → le a c = true)
    (h : BinaryHeap α) (hheap : IsHeap le h) (hall : AllP P h) :
    ∀ i, i < h.size → le (h.data i) (h.data 0) = true := by
  intro i
  induction i using Nat.strong_induction_on with
  | _ i ih =>
    intro hi
    rcases Nat.eq_zero_or_pos i with rfl | hpos
    · exact (htot (h.data 0) (h.data 0)).elim id id
    · have hpar := hheap i hpos hi
      have hqi : (i - 1) / 2 < i := by omega
      have hqsz : (i - 1) / 2 < h.size := lt_trans hqi hi
      have hroot := ih ((i - 1) / 2) hqi hqsz
      exact htr _ _ _ (hall i hi) (hall _ hqsz) (hall 0 (by omega)) hpar hroot

theorem pop_max
    (htot : ∀ a b : α, le a b = true ∨ le b a = true)
    (htr : ∀ a b c : α, P a → P b → P c → le a b = true → le b c = true → le a c = true)
    {h h' : BinaryHeap α} {v : α}
    (hpop : h.pop le = some (v, h')) (hheap : IsHeap le h) (hall : AllP P h) :
    ∀ x ∈ contents h, le x v = true := by
  obtain ⟨hs, hv, _⟩ := pop_eq_some hpop
  intro x hx
  obtain ⟨i, hi, rfl⟩ := mem_contents.mp hx
  rw [hv]
  exact isHeap_le_root htot htr h hheap hall i hi

theorem allP_pop [DecidableEq α] {h h' : BinaryHeap α} {v : α}
    (hpop : h.pop le = some (v, h')) (hall : AllP P h) : AllP P h' := by
  obtain ⟨hs, hv, rfl⟩ := pop_eq_some hpop
  rw [allP_iff_mem]
  intro y hy
  have hy2 := (siftDownToBottom_contents _).mem_iff.mp hy
  obtain ⟨i, hi, rfl⟩ := mem_contents.mp hy2
  have hi' : i < h.size - 1 := hi
  show P (upd h.data 0 (h.data (h.size - 1)) i)
  unfold upd
  split
  · exact hall _ (by omega)
  · exact hall i (by omega)

theorem allP_push [DecidableEq α] (h : BinaryHeap α) (x : α)
    (hall : AllP P h) (hx : P x) : AllP P (h.push le x) := by
  rw [allP_iff_mem]
  intro y hy
  have hy2 := (contents_push h x).mem_iff.mp hy
  rcases List.mem_cons.mp hy2 with rfl | hmem
  · exact hx
  · exact (allP_iff_mem.mp hall) y hmem

end BinaryHeap

/-! ### Transitivity of the row comparator on well-formed rows -/

theorem cmpInt_lt_iff (x y : Int) : cmpInt x y = .lt ↔ x < y := by
  unfold cmpInt
  rcases lt_trichotomy x y with h | h | h
  · rw [if_pos h]; simp [h]
  · subst h; rw [if_neg (lt_irrefl x), if_pos rfl]; simp
  · rw [if_neg (by omega), if_neg (by omega)]; simp; omega

theorem cmpVal_lt_trans {x y z : Value} (h1 : cmpVal x y = .lt) (h2 : cmpVal y z = .lt) :
    cmpVal x z = .lt := by
  cases x <;> cases y <;> cases z <;> simp_all [cmpVal, cmpInt_lt_iff] <;> omega

theorem cmpVal_gt_iff_swap (x y : Value) : cmpVal x y = .gt ↔ cmpVal y x = .lt := by
  rw [cmpVal_swap x y]
  cases cmpVal x y <;> simp [Ordering.swap]

theorem ordSwap_eq_lt (o : Ordering) : o.swap = .lt ↔ o = .gt := by
  cases o <;> simp [Ordering.swap]

theorem ordSwap_eq_eq (o : Ordering) : o.swap = .eq ↔ o = .eq := by
  cases o <;> simp [Ordering.swap]

theorem applyDir_lt_trans (d : OrderType) {x y z : Value}
    (h1 : applyDir d (cmpVal x y) = .lt) (h2 : applyDir d (cmpVal y z) = .lt) :
    applyDir d (cmpVal x z) = .lt := by
  cases d with
  | Ascending => exact cmpVal_lt_trans h1 h2
  | Descending =>
    simp only [applyDir, ordSwap_eq_lt] at h1 h2 ⊢
    rw [cmpVal_gt_iff_swap] at h1 h2 ⊢
    exact cmpVal_lt_trans h2 h1

theorem getD_ne_gt_head {o : Option Ordering} :
    o.getD .eq ≠ .gt ↔ o ≠ some .gt := by
  cases o with
  | none => simp
  | some v => cases v <;> simp

theorem cmpRows_trans (pairs : List OrderPair) :
    ∀ r1 r2 r3 : List Value,
    (∀ p ∈ pairs, p.order < r1.length) →
    (∀ p ∈ pairs, p.order < r2.length) →
    (∀ p ∈ pairs, p.order < r3.length) →
    rowsLe pairs r1 r2 → rowsLe pairs r2 r3 → rowsLe pairs r1 r3 := by
  induction pairs with
  | nil =>
    intro r1 r2 r3 _ _ _ _ _
    simp [rowsLe, cmpRows]
  | cons p rest ih =>
    intro r1 r2 r3 hw1 hw2 hw3 h12 h23
    have hp1 : p.order < r1.length := hw1 p (by simp)
    have hp2 : p.order < r2.length := hw2 p (by simp)
    have hp3 : p.order < r3.length := hw3 p (by simp)
    have hv1 : r1[p.order]? = some r1[p.order] := List.getElem?_eq_getElem hp1
    have hv2 : r2[p.order]? = some r2[p.order] := List.getElem?_eq_getElem hp2
    have hv3 : r3[p.order]? = some r3[p.order] := List.getElem?_eq_getElem hp3
    unfold rowsLe at h12 h23 ⊢
    rw [show cmpRows (p :: rest) r1 r2 =
        (match applyDir p.order_type (cmpVal r1[p.order] r2[p.order]) with
          | .eq => cmpRows rest r1 r2
          | .lt => some .lt
          | .gt => some .gt) by
      simp [cmpRows, List.get?_eq_getElem?, hv1, hv2]] at h12
    rw [show cmpRows (p :: rest) r2 r3 =
        (match applyDir p.order_type (cmpVal r2[p.order] r3[p.order]) with
          | .eq => cmpRows rest r2 r3
          | .lt => some .lt
          | .gt => some .gt) by
      simp [cmpRows, List.get?_eq_getElem?, hv2, hv3]] at h23
    rw [show cmpRows (p :: rest) r1 r3 =
        (match applyDir p.order_type (cmpVal r1[p.order] r3[p.order]) with
          | .eq => cmpRows rest r1 r3
          | .lt => some .lt
          | .gt => some .gt) by
      simp [cmpRows, List.get?_eq_getElem?, hv1, hv3]]
    have hw1' : ∀ q ∈ rest, q.order < r1.length := fun q hq => hw1 q (by simp [hq])
    have hw2' : ∀ q ∈ rest, q.order < r2.length := fun q hq => hw2 q (by simp [hq])
    have hw3' : ∀ q ∈ rest, q.order < r3.length := fun q hq => hw3 q (by simp [hq])
    rcases h12o : applyDir p.order_type (cmpVal r1[p.order] r2[p.order]) with _ | _ | _ <;>
      rw [h12o] at h12 <;>
      rcases h23o : applyDir p.order_type (cmpVal r2[p.order] r3[p.order]) with _ | _ | _ <;>
        rw [h23o] at h23
    · -- lt, lt
      rw [applyDir_lt_trans p.order_type h12o h23o]
      simp
    · -- lt, eq: values 2 = 3
      have hveq : r2[p.order] = r3[p.order] :=
        cmpVal_eq_iff _ _ |>.mp ((applyDir_eq_iff _ _).mp h23o)
      rw [← hveq, h12o]
      simp
    · -- lt, gt: h23 is a contradiction
      simp at h23
    · -- eq, lt: values 1 = 2
      have hveq : r1[p.order] = r2[p.order] :=
        cmpVal_eq_iff _ _ |>.mp ((applyDir_eq_iff _ _).mp h12o)
      rw [hveq, h23o]
      simp
    · -- eq, eq
      have hveq : r1[p.order] = r2[p.order] :=
        cmpVal_eq_iff _ _ |>.mp ((applyDir_eq_iff _ _).mp h12o)
      rw [hveq, h23o]
      exact ih r1 r2 r3 hw1' hw2' hw3' h12 h23
    · -- eq, gt: contradiction
      simp at h23
    · -- gt, *: contradiction
      simp at h12
    · simp at h12
    · simp at h12

/-! ### Elementwise order facts for merge candidates -/

theorem rowAt_length (c : DataChunk) (i : Nat) : (c.rowAt i).length = c.dimension := by
  simp [DataChunk.rowAt, DataChunk.dimension]

theorem chunkAt_mem {chunks : List DataChunk} {i : Nat} (hi : i < chunks.length) :
    chunkAt chunks i ∈ chunks := by
  unfold chunkAt
  rw [List.getD_eq_getElem _ _ hi]
  exact List.getElem_mem hi

theorem rcmp_swap (pairs : List OrderPair) (chunks : List DataChunk) (a b : HeapElem) :
    rcmp pairs chunks b a = (rcmp pairs chunks a b).swap := by
  unfold rcmp compare_two_row
  rw [cmpRows_swap]
  cases cmpRows pairs ((chunkAt chunks a.chunk_idx).rowAt a.elem_idx)
    ((chunkAt chunks b.chunk_idx).rowAt b.elem_idx) <;> rfl

theorem rowLe_refl (pairs : List OrderPair) (chunks : List DataChunk) (a : HeapElem) :
    rowLe pairs chunks a a := by
  intro hgt
  have h := rcmp_swap pairs chunks a a
  rw [hgt] at h
  simp [Ordering.swap] at h

theorem heLe_total (pairs : List OrderPair) (chunks : List DataChunk) :
    ∀ a b, heLe pairs chunks a b = true ∨ heLe pairs chunks b a = true := by
  intro a b
  unfold heLe heCmp
  have hsw := rcmp_swap pairs chunks a b
  unfold rcmp at hsw
  rcases hab : (compare_two_row pairs (chunkAt chunks a.chunk_idx) a.elem_idx
      (chunkAt chunks b.chunk_idx) b.elem_idx).getD .eq with _ | _ | _
  · right
    rw [hsw, hab]
    rfl
  · left; rfl
  · left; rfl

theorem heLe_true_iff (pairs : List OrderPair) (chunks : List DataChunk) (a b : HeapElem) :
    heLe pairs chunks a b = true ↔ rowLe pairs chunks b a := by
  unfold heLe heCmp rowLe
  rw [rcmp_swap pairs chunks a b]
  unfold rcmp
  cases (compare_two_row pairs (chunkAt chunks a.chunk_idx) a.elem_idx
      (chunkAt chunks b.chunk_idx) b.elem_idx).getD .eq <;>
    simp [Ordering.swap] <;> decide

theorem rowLe_trans {pairs : List OrderPair} {chunks : List DataChunk} {d : Nat}
    (hWF : WFInput pairs chunks d) {a b c : HeapElem}
    (ha : a.chunk_idx < chunks.length) (hb : b.chunk_idx < chunks.length)
    (hc : c.chunk_idx < chunks.length) :
    rowLe pairs chunks a b → rowLe pairs chunks b c → rowLe pairs chunks a c := by
  have hlen : ∀ e : HeapElem, e.chunk_idx < chunks.length →
      ∀ p ∈ pairs, p.order < ((chunkAt chunks e.chunk_idx).rowAt e.elem_idx).length := by
    intro e he p hp
    rw [rowAt_length, hWF.1 _ (chunkAt_mem he)]
    exact hWF.2 p hp
  exact cmpRows_trans pairs _ _ _ (hlen a ha) (hlen b hb) (hlen c hc)

theorem heLe_trans {pairs : List OrderPair} {chunks : List DataChunk} {d : Nat}
    (hWF : WFInput pairs chunks d) :
    ∀ a b c : HeapElem, a.chunk_idx < chunks.length → b.chunk_idx < chunks.length →
      c.chunk_idx < chunks.length →
      heLe pairs chunks a b = true → heLe pairs chunks b c = true →
      heLe pairs chunks a c = true := by
  intro a b c ha hb hc h1 h2
  rw [heLe_true_iff] at h1 h2 ⊢
  exact rowLe_trans hWF hc hb ha h2 h1

/-! ### Facts about the local sort and `vseq` -/

theorem localOrdLe_total (pairs : List OrderPair) (c : DataChunk) :
    ∀ a b : Nat, localOrdLe pairs c a b ∨ localOrdLe pairs c b a := by
  intro a b
  have hsw : localOrd pairs c b a = (localOrd pairs c a b).swap := by
    unfold localOrd compare_two_row
    rw [cmpRows_swap]
    cases cmpRows pairs (c.rowAt a) (c.rowAt b) <;> rfl
  unfold localOrdLe
  rcases hab : localOrd pairs c a b with _ | _ | _
  · left; simp [hab]
  · left; simp [hab]
  · right; rw [hsw, hab]; simp [Ordering.swap]

theorem localOrdLe_trans {pairs : List OrderPair} {c : DataChunk} {d : Nat}
    (hc : c.dimension = d) (hp : ∀ p ∈ pairs, p.order < d) :
    ∀ a b e : Nat, localOrdLe pairs c a b → localOrdLe pairs c b e →
      localOrdLe pairs c a e := by
  intro a b e h1 h2
  have hlen : ∀ i : Nat, ∀ q ∈ pairs, q.order < (c.rowAt i).length := by
    intro i q hq
    rw [rowAt_length, hc]
    exact hp q hq
  exact cmpRows_trans pairs _ _ _ (hlen a) (hlen b) (hlen e) h1 h2

/-- The locally sorted index permutation, as a permutation of the rows. -/
theorem get_order_index_perm (pairs : List OrderPair) (c : DataChunk) :
    (get_order_index_from pairs c).Perm (List.range c.cardinality) :=
  List.perm_insertionSort _ _

theorem get_order_index_sorted {pairs : List OrderPair} {c : DataChunk} {d : Nat}
    (hc : c.dimension = d) (hp : ∀ p ∈ pairs, p.order < d) :
    List.Pairwise (localOrdLe pairs c) (get_order_index_from pairs c) := by
  unfold get_order_index_from
  haveI : IsTotal Nat (localOrdLe pairs c) := ⟨localOrdLe_total pairs c⟩
  haveI : IsTrans Nat (localOrdLe pairs c) := ⟨localOrdLe_trans hc hp⟩
  exact List.sorted_insertionSort _ _

theorem vseq_perm (pairs : List OrderPair) (chunks : List DataChunk) (i : Nat) :
    (vseq pairs chunks i).Perm
      ((List.range (chunkAt chunks i).cardinality).filter (chunkAt chunks i).visibleRow) :=
  (get_order_index_perm pairs (chunkAt chunks i)).filter _

theorem vseq_sorted {pairs : List OrderPair} {chunks : List DataChunk} {d : Nat}
    (hWF : WFInput pairs chunks d) {i : Nat} (hi : i < chunks.length) :
    List.Pairwise (localOrdLe pairs (chunkAt chunks i)) (vseq pairs chunks i) :=
  (get_order_index_sorted (hWF.1 _ (chunkAt_mem hi)) hWF.2).filter _

/-- Members of `vseq` are visible in-range rows. -/
theorem vseq_mem {pairs : List OrderPair} {chunks : List DataChunk} {i j : Nat}
    (hj : j ∈ vseq pairs chunks i) :
    j < (chunkAt chunks i).cardinality ∧ (chunkAt chunks i).visibleRow j = true := by
  have := (vseq_perm pairs chunks i).mem_iff.mp hj
  have hmem := List.mem_filter.mp this
  exact ⟨List.mem_range.mp hmem.1, hmem.2⟩

/-- `rowLe` between two candidates of the same chunk is the local order. -/
theorem rowLe_same_chunk (pairs : List OrderPair) (chunks : List DataChunk)
    {i a b : Nat} (h : localOrdLe pairs (chunkAt chunks i) a b) :
    rowLe pairs chunks (HeapElem.mk i a) (HeapElem.mk i b) := h

/-! ### The cursor specification of `push_heap_for_chunk` -/

theorem pushHeapAux_spec (pairs : List OrderPair) (chunks : List DataChunk)
    (c : DataChunk) (s : List Nat) (idx : Nat) :
    ∀ (fuel v : Nat) (hp : BinaryHeap HeapElem),
    c.cardinality - v ≤ fuel → v ≤ c.cardinality → s.length = c.cardinality →
    (((s.drop v).filter c.visibleRow = [] →
        pushHeapAux pairs chunks c s idx fuel hp v = (hp, c.cardinality)) ∧
     (∀ j rest, (s.drop v).filter c.visibleRow = j :: rest →
        ∃ v', pushHeapAux pairs chunks c s idx fuel hp v =
            (hp.push (heLe pairs chunks) ⟨idx, j⟩, v') ∧
          v' ≤ c.cardinality ∧
          (s.drop v').filter c.visibleRow = rest)) := by
  intro fuel
  induction fuel with
  | zero =>
    intro v hp hfl hv hlen
    have hveq : v = c.cardinality := by omega
    have hdrop : s.drop v = [] := List.drop_eq_nil_of_le (by omega)
    constructor
    · intro _
      rw [hveq]
      rfl
    · intro j rest hjr
      rw [hdrop] at hjr
      cases hjr
  | succ f ih =>
    intro v hp hfl hv hlen
    by_cases hvc : v < c.cardinality
    · have hvs : v < s.length := by omega
      have hdropv : s.drop v = s[v] :: s.drop (v + 1) := List.drop_eq_getElem_cons hvs
      have hgetD : s[v]?.getD 0 = s[v] := by
        rw [List.getElem?_eq_getElem hvs]
        rfl
      rcases hskip : c.skippedRow s[v] with _ | _
      · have hvis : c.visibleRow s[v] = true := by
          simp [DataChunk.visibleRow, hskip]
        have hstep : pushHeapAux pairs chunks c s idx (f + 1) hp v =
            (hp.push (heLe pairs chunks) ⟨idx, s[v]⟩, v + 1) := by
          simp [pushHeapAux, hvc, hgetD, hskip]
        constructor
        · intro hnil
          rw [hdropv, List.filter_cons, if_pos hvis] at hnil
          cases hnil
        · intro j rest hjr
          rw [hdropv, List.filter_cons, if_pos hvis] at hjr
          injection hjr with h1 h2
          refine ⟨v + 1, ?_, by omega, ?_⟩
          · rw [hstep, h1]
          · exact h2
      · have hnvis : c.visibleRow s[v] = false := by
          simp [DataChunk.visibleRow, hskip]
        have hstep : pushHeapAux pairs chunks c s idx (f + 1) hp v =
            pushHeapAux pairs chunks c s idx f hp (v + 1) := by
          simp [pushHeapAux, hvc, hgetD, hskip]
        have hrec := ih (v + 1) hp (by omega) (by omega) hlen
        rw [hstep, hdropv, List.filter_cons, if_neg (by simp [hnvis])]
        exact hrec
    · have hveq : v = c.cardinality := by omega
      have hdrop : s.drop v = [] := List.drop_eq_nil_of_le (by omega)
      have hstep : pushHeapAux pairs chunks c s idx (f + 1) hp v = (hp, v) := by
        simp [pushHeapAux, hvc]
      constructor
      · intro _
        rw [hstep, hveq]
      · intro j rest hjr
        rw [hdrop] at hjr
        cases hjr

/-! ### Small list utilities for the merge invariant -/

theorem perm_eq_of_length_le_one {β : Type} {l1 l2 : List β}
    (h : l1.Perm l2) (hl : l2.length ≤ 1) : l1 = l2 := by
  cases l2 with
  | nil => exact h.eq_nil
  | cons a t =>
    cases t with
    | nil => exact List.perm_singleton.mp h
    | cons b t2 => simp at hl

theorem eq_singleton_of_mem_of_length_le_one {β : Type} {l : List β} {x : β}
    (hx : x ∈ l) (hl : l.length ≤ 1) : l = [x] := by
  cases l with
  | nil => cases hx
  | cons a t =>
    cases t with
    | nil =>
      rcases List.mem_singleton.mp hx with rfl
      rfl
    | cons b t2 => simp at hl

theorem take_succ_getElem {β : Type} (l : List β) (m : Nat) (h : m < l.length) :
    l.take (m + 1) = l.take m ++ [l[m]] := by
  rw [List.take_succ, List.getElem?_eq_getElem h]
  rfl

/-- The sorted-index table built by `collect_child_data` holds, at position
`i`, the local sort of chunk `i`. -/
theorem sortedI_getD (pairs : List OrderPair) (chunks : List DataChunk) (i : Nat) :
    (chunks.map (get_order_index_from pairs)).getD i [] =
      get_order_index_from pairs (chunkAt chunks i) := by
  unfold chunkAt
  rw [List.getD_eq_getElem?_getD, List.getD_eq_getElem?_getD, List.getElem?_map]
  cases h : chunks[i]? with
  | none => rfl
  | some c => rfl

theorem length_get_order_index (pairs : List OrderPair) (c : DataChunk) :
    (get_order_index_from pairs c).length = c.cardinality := by
  rw [(get_order_index_perm pairs c).length_eq, List.length_range]

theorem getD_set_self_nat {l : List Nat} {i v : Nat} (h : i < l.length) :
    (l.set i v).getD i 0 = v := by
  rw [List.getD_eq_getElem?_getD, List.getElem?_set_self h]
  rfl

theorem getD_set_ne_nat {l : List Nat} {i k v : Nat} (h : i ≠ k) :
    (l.set i v).getD k 0 = l.getD k 0 := by
  rw [List.getD_eq_getElem?_getD, List.getD_eq_getElem?_getD, List.getElem?_set_ne h]

/-- One iteration of the merge loop — pop the heap's top and refill from the
chunk it came from — preserves the merge invariant, emitting the popped
candidate. -/
theorem merge_step {pairs : List OrderPair} {chunks : List DataChunk} {d : Nat}
    (hWF : WFInput pairs chunks d)
    {hp hp' : BinaryHeap HeapElem} {vis : List Nat} {emitted : List HeapElem}
    {top : HeapElem}
    (hinv : MergeSt pairs chunks chunks.length hp vis emitted)
    (hpop : hp.pop (heLe pairs chunks) = some (top, hp')) :
    MergeSt pairs chunks chunks.length
      (push_heap_for_chunk pairs chunks (chunks.map (get_order_index_from pairs))
        top.chunk_idx hp' vis).1
      (push_heap_for_chunk pairs chunks (chunks.map (get_order_index_from pairs))
        top.chunk_idx hp' vis).2
      (emitted ++ [top]) := by
  have htot := heLe_total pairs chunks
  have htr := heLe_trans hWF
  have hsz : hp.size ≠ 0 := (BinaryHeap.pop_eq_some hpop).1
  have htopd : top = hp.data 0 := (BinaryHeap.pop_eq_some hpop).2.1
  have htopmem : top ∈ BinaryHeap.contents hp := by
    rw [htopd]
    exact BinaryHeap.mem_contents.mpr ⟨0, by omega, rfl⟩
  have hperm : (BinaryHeap.contents hp).Perm (top :: BinaryHeap.contents hp') := by
    have hps : ∃ h2 : BinaryHeap HeapElem,
        hp.pop (heLe pairs chunks) = some (hp.data 0, h2) ∧
        h2.size + 1 = hp.size ∧
        (BinaryHeap.contents hp).Perm (hp.data 0 :: BinaryHeap.contents h2) :=
      BinaryHeap.pop_spec hp hsz
    obtain ⟨h2, hpop2, _, hperm2⟩ := hps
    rw [hpop, Option.some.injEq, Prod.mk.injEq] at hpop2
    rw [← hpop2.1, ← hpop2.2] at hperm2
    exact hperm2
  have hmemhp' : ∀ f ∈ BinaryHeap.contents hp', f ∈ BinaryHeap.contents hp := by
    intro f hf
    exact hperm.mem_iff.mpr (List.mem_cons_of_mem _ hf)
  have htopmax : ∀ x ∈ BinaryHeap.contents hp, rowLe pairs chunks top x := by
    intro x hx
    have hle := BinaryHeap.pop_max htot htr hpop hinv.isHeap hinv.allIdx x hx
    exact (heLe_true_iff pairs chunks x top).mp hle
  have hheap' : BinaryHeap.IsHeap (heLe pairs chunks) hp' :=
    BinaryHeap.pop_isHeap htot htr hpop hinv.isHeap hinv.allIdx
  have hall' : BinaryHeap.AllP (fun e => e.chunk_idx < chunks.length) hp' :=
    BinaryHeap.allP_pop hpop hinv.allIdx
  have hti : top.chunk_idx < chunks.length :=
    (BinaryHeap.allP_iff_mem.mp hinv.allIdx) top htopmem
  obtain ⟨m, hmle, heqc, hlen1, hdropc, hvle, hfullc, _⟩ := hinv.chunkSt top.chunk_idx hti
  have htopfilt : top ∈ (BinaryHeap.contents hp).filter
      (fun e => e.chunk_idx == top.chunk_idx) :=
    List.mem_filter.mpr ⟨htopmem, by simp⟩
  have hHtop : (BinaryHeap.contents hp).filter (fun e => e.chunk_idx == top.chunk_idx) =
      [top] :=
    eq_singleton_of_mem_of_length_le_one htopfilt hlen1
  have heqc' : emitted.filter (fun e => e.chunk_idx == top.chunk_idx) ++ [top] =
      ((vseq pairs chunks top.chunk_idx).take m).map
        (fun j => HeapElem.mk top.chunk_idx j) := by
    rw [← hHtop]
    exact heqc
  have hmpos : 1 ≤ m := by
    by_contra hm0
    have hm0' : m = 0 := by omega
    rw [hm0'] at heqc'
    simp at heqc'
  have hm1lt : m - 1 < (vseq pairs chunks top.chunk_idx).length := by omega
  have hsplit := heqc'
  rw [(by omega : m = (m - 1) + 1), take_succ_getElem _ _ hm1lt,
    List.map_append] at hsplit
  have htopval : top = HeapElem.mk top.chunk_idx
      ((vseq pairs chunks top.chunk_idx)[m - 1]) := by
    have hinj := List.append_inj' hsplit (by simp)
    simpa using hinj.2
  have hHtop' : (BinaryHeap.contents hp').filter
      (fun e => e.chunk_idx == top.chunk_idx) = [] := by
    have hpf := hperm.filter (fun e => e.chunk_idx == top.chunk_idx)
    rw [List.filter_cons, if_pos (by simp), hHtop] at hpf
    have hnil := (List.perm_cons top).mp hpf
    exact hnil.symm.eq_nil
  have hfilt' : ∀ i, i < chunks.length → ¬top.chunk_idx = i →
      (BinaryHeap.contents hp').filter (fun e => e.chunk_idx == i) =
      (BinaryHeap.contents hp).filter (fun e => e.chunk_idx == i) := by
    intro i hi hne
    obtain ⟨mi, _, _, hlen1i, _⟩ := hinv.chunkSt i hi
    have hpf := hperm.filter (fun e => e.chunk_idx == i)
    rw [List.filter_cons, if_neg (by simp [hne])] at hpf
    exact perm_eq_of_length_le_one hpf.symm hlen1i
  have hvl : top.chunk_idx < vis.length := by
    rw [hinv.visLen]
    exact hti
  have hs : (chunks.map (get_order_index_from pairs)).getD top.chunk_idx [] =
      get_order_index_from pairs (chunkAt chunks top.chunk_idx) :=
    sortedI_getD pairs chunks top.chunk_idx
  have hslen : ((chunks.map (get_order_index_from pairs)).getD top.chunk_idx []).length =
      (chunkAt chunks top.chunk_idx).cardinality := by
    rw [hs, length_get_order_index]
  have hspec := pushHeapAux_spec pairs chunks (chunkAt chunks top.chunk_idx)
      ((chunks.map (get_order_index_from pairs)).getD top.chunk_idx [])
      top.chunk_idx (chunkAt chunks top.chunk_idx).cardinality
      (vis.getD top.chunk_idx 0) hp' (by omega) hvle hslen
  have hemIdx : ∀ e ∈ emitted ++ [top], e.chunk_idx < chunks.length := by
    intro e he
    rcases List.mem_append.mp he with he | he
    · exact hinv.emIdx e he
    · rcases List.mem_singleton.mp he with rfl
      exact hti
  have hemSorted : List.Pairwise (rowLe pairs chunks) (emitted ++ [top]) := by
    rw [List.pairwise_append]
    refine ⟨hinv.emSorted, List.pairwise_singleton _ _, ?_⟩
    intro e he t ht
    rcases List.mem_singleton.mp ht with rfl
    exact hinv.emHeapLe e he t htopmem
  have hf1 : [top].filter (fun e => e.chunk_idx == top.chunk_idx) = [top] := by
    simp
  rcases hVm : (vseq pairs chunks top.chunk_idx).drop m with _ | ⟨j, rest⟩
  · -- chunk exhausted: the refill finds nothing, the cursor walks to the end
    have hmeq : m = (vseq pairs chunks top.chunk_idx).length := by
      have := List.drop_eq_nil_iff.mp hVm
      omega
    have hrem : (((chunks.map (get_order_index_from pairs)).getD top.chunk_idx []).drop
        (vis.getD top.chunk_idx 0)).filter (chunkAt chunks top.chunk_idx).visibleRow
        = [] := by
      rw [hs, hdropc, hVm]
    have hres : push_heap_for_chunk pairs chunks (chunks.map (get_order_index_from pairs))
        top.chunk_idx hp' vis =
        (hp', vis.set top.chunk_idx (chunkAt chunks top.chunk_idx).cardinality) := by
      simp only [push_heap_for_chunk]
      rw [hspec.1 hrem]
    rw [hres]
    refine ⟨hheap', ?_, hall', hemIdx, hemSorted, ?_, ?_⟩
    · rw [List.length_set]
      exact hinv.visLen
    · intro e he f hf
      rcases List.mem_append.mp he with he | he
      · exact hinv.emHeapLe e he f (hmemhp' f hf)
      · rcases List.mem_singleton.mp he with rfl
        exact htopmax f (hmemhp' f hf)
    · intro i hi
      by_cases hii : top.chunk_idx = i
      · subst hii
        refine ⟨m, hmle, ?_, ?_, ?_, ?_, ?_, ?_⟩
        · rw [List.filter_append, hf1, hHtop', List.append_nil]
          exact heqc'
        · rw [hHtop']
          simp
        · rw [getD_set_self_nat hvl]
          have hnil : (get_order_index_from pairs (chunkAt chunks top.chunk_idx)).drop
              (chunkAt chunks top.chunk_idx).cardinality = [] :=
            List.drop_eq_nil_of_le (by rw [length_get_order_index])
          rw [hnil, hVm]
          rfl
        · rw [getD_set_self_nat hvl]
        · intro _ _
          exact hmeq
        · intro hcon
          omega
      · obtain ⟨mi, hmile, heqi, hlen1i, hdropi, hvlei, hfulli, _⟩ := hinv.chunkSt i hi
        have hf0 : [top].filter (fun e => e.chunk_idx == i) = [] := by
          simp [hii]
        refine ⟨mi, hmile, ?_, ?_, ?_, ?_, ?_, ?_⟩
        · rw [List.filter_append, hf0, List.append_nil, hfilt' i hi hii]
          exact heqi
        · rw [hfilt' i hi hii]
          exact hlen1i
        · rw [getD_set_ne_nat hii]
          exact hdropi
        · rw [getD_set_ne_nat hii]
          exact hvlei
        · intro hisd hnil
          rw [hfilt' i hi hii] at hnil
          exact hfulli hisd hnil
        · intro hcon
          omega
  · -- the chunk still has candidates: the refill pushes the next one
    have hmlt : m < (vseq pairs chunks top.chunk_idx).length := by
      by_contra hge
      rw [List.drop_eq_nil_of_le (by omega)] at hVm
      cases hVm
    have hcons := (List.drop_eq_getElem_cons hmlt).symm.trans hVm
    injection hcons with hj hrest
    have hrem : (((chunks.map (get_order_index_from pairs)).getD top.chunk_idx []).drop
        (vis.getD top.chunk_idx 0)).filter (chunkAt chunks top.chunk_idx).visibleRow
        = j :: rest := by
      rw [hs, hdropc, hVm]
    obtain ⟨v', hpush, hv'le, hrem'⟩ := hspec.2 j rest hrem
    have hres : push_heap_for_chunk pairs chunks (chunks.map (get_order_index_from pairs))
        top.chunk_idx hp' vis =
        (hp'.push (heLe pairs chunks) ⟨top.chunk_idx, j⟩, vis.set top.chunk_idx v') := by
      simp only [push_heap_for_chunk]
      rw [hpush]
    have hcont : (BinaryHeap.contents (hp'.push (heLe pairs chunks)
        (HeapElem.mk top.chunk_idx j))).Perm
        (HeapElem.mk top.chunk_idx j :: BinaryHeap.contents hp') :=
      BinaryHeap.contents_push hp' (HeapElem.mk top.chunk_idx j)
    have hlocal : localOrdLe pairs (chunkAt chunks top.chunk_idx)
        ((vseq pairs chunks top.chunk_idx)[m - 1])
        ((vseq pairs chunks top.chunk_idx)[m]) :=
      List.pairwise_iff_getElem.mp (vseq_sorted hWF hti) (m - 1) m hm1lt hmlt (by omega)
    have htople : rowLe pairs chunks top (HeapElem.mk top.chunk_idx j) := by
      rw [htopval, ← hj]
      exact rowLe_same_chunk pairs chunks hlocal
    rw [hres]
    refine ⟨?_, ?_, ?_, hemIdx, hemSorted, ?_, ?_⟩
    · exact BinaryHeap.push_isHeap htot htr hp' _ hheap' hall' hti
    · rw [List.length_set]
      exact hinv.visLen
    · exact BinaryHeap.allP_push hp' _ hall' hti
    · intro e he f hf
      have hf2 := hcont.mem_iff.mp hf
      rcases List.mem_cons.mp hf2 with rfl | hmem
      · rcases List.mem_append.mp he with he | he
        · exact rowLe_trans hWF (hinv.emIdx e he) hti hti
            (hinv.emHeapLe e he top htopmem) htople
        · rcases List.mem_singleton.mp he with rfl
          exact htople
      · rcases List.mem_append.mp he with he | he
        · exact hinv.emHeapLe e he f (hmemhp' f hmem)
        · rcases List.mem_singleton.mp he with rfl
          exact htopmax f (hmemhp' f hmem)
    · intro i hi
      by_cases hii : top.chunk_idx = i
      · subst hii
        have hHnew : (BinaryHeap.contents (hp'.push (heLe pairs chunks)
            (HeapElem.mk top.chunk_idx j))).filter
            (fun e => e.chunk_idx == top.chunk_idx) = [HeapElem.mk top.chunk_idx j] := by
          have hpf := hcont.filter (fun e => e.chunk_idx == top.chunk_idx)
          rw [List.filter_cons, if_pos (by simp), hHtop'] at hpf
          exact perm_eq_of_length_le_one hpf (by simp)
        refine ⟨m + 1, by omega, ?_, ?_, ?_, ?_, ?_, ?_⟩
        · rw [List.filter_append, hf1, hHnew, take_succ_getElem _ _ hmlt,
            List.map_append, ← heqc', hj]
          simp
        · rw [hHnew]
          simp
        · rw [getD_set_self_nat hvl, ← hs, hrem', hrest]
        · rw [getD_set_self_nat hvl]
          exact hv'le
        · intro _ hnil
          rw [hHnew] at hnil
          simp at hnil
        · intro hcon
          omega
      · obtain ⟨mi, hmile, heqi, hlen1i, hdropi, hvlei, hfulli, _⟩ := hinv.chunkSt i hi
        have hf0 : [top].filter (fun e => e.chunk_idx == i) = [] := by
          simp [hii]
        have hHi : (BinaryHeap.contents (hp'.push (heLe pairs chunks)
            (HeapElem.mk top.chunk_idx j))).filter (fun e => e.chunk_idx == i) =
            (BinaryHeap.contents hp).filter (fun e => e.chunk_idx == i) := by
          have hpf := hcont.filter (fun e => e.chunk_idx == i)
          rw [List.filter_cons, if_neg (by simp [hii]), hfilt' i hi hii] at hpf
          exact perm_eq_of_length_le_one hpf hlen1i
        refine ⟨mi, hmile, ?_, ?_, ?_, ?_, ?_, ?_⟩
        · rw [List.filter_append, hf0, List.append_nil, hHi]
          exact heqi
        · rw [hHi]
          exact hlen1i
        · rw [getD_set_ne_nat hii]
          exact hdropi
        · rw [getD_set_ne_nat hii]
          exact hvlei
        · intro hisd hnil
          rw [hHi] at hnil
          exact hfulli hisd hnil
        · intro hcon
          omega

/-- Running the merge loop from any state satisfying the merge invariant
preserves it, appending the popped candidates to the emitted list. -/
theorem mergeLoop_preserves {pairs : List OrderPair} {chunks : List DataChunk} {d : Nat}
    (hWF : WFInput pairs chunks d) :
    ∀ (fuel : Nat) (hp : BinaryHeap HeapElem) (vis : List Nat) (emitted : List HeapElem),
    MergeSt pairs chunks chunks.length hp vis emitted →
    MergeSt pairs chunks chunks.length
      (mergeLoop pairs chunks (chunks.map (get_order_index_from pairs)) fuel hp vis).2.1
      (mergeLoop pairs chunks (chunks.map (get_order_index_from pairs)) fuel hp vis).2.2
      (emitted ++
        (mergeLoop pairs chunks (chunks.map (get_order_index_from pairs)) fuel hp vis).1) := by
  intro fuel
  induction fuel with
  | zero =>
    intro hp vis emitted hinv
    simpa [mergeLoop] using hinv
  | succ f ih =>
    intro hp vis emitted hinv
    rcases hpop : hp.pop (heLe pairs chunks) with _ | ⟨top, hp'⟩
    · simp only [mergeLoop, hpop]
      simpa using hinv
    · have hstep := merge_step hWF hinv hpop
      have hrec := ih _ _ (emitted ++ [top]) hstep
      simp only [mergeLoop, hpop]
      simpa using hrec

theorem getD_replicate_zero {n i : Nat} : (List.replicate n (0 : Nat)).getD i 0 = 0 := by
  rw [List.getD_eq_getElem?_getD]
  cases h : (List.replicate n (0 : Nat))[i]? with
  | none => rfl
  | some v =>
    have hv := List.eq_of_mem_replicate (List.getElem?_mem h)
    rw [hv]
    rfl

/-- Seeding one more chunk in `collect_child_data`'s final loop preserves the
merge invariant, widening the seeded range by one. -/
theorem seed_step {pairs : List OrderPair} {chunks : List DataChunk} {d : Nat}
    (hWF : WFInput pairs chunks d) {k : Nat} (hk : k < chunks.length)
    {hp : BinaryHeap HeapElem} {vis : List Nat}
    (hinv : MergeSt pairs chunks k hp vis []) :
    MergeSt pairs chunks (k + 1)
      (push_heap_for_chunk pairs chunks (chunks.map (get_order_index_from pairs))
        k hp vis).1
      (push_heap_for_chunk pairs chunks (chunks.map (get_order_index_from pairs))
        k hp vis).2
      [] := by
  have htot := heLe_total pairs chunks
  have htr := heLe_trans hWF
  obtain ⟨mk0, _, _, _, hdropk, hvlek, _, hunsk⟩ := hinv.chunkSt k hk
  obtain ⟨hm0, hv0, hfk⟩ := hunsk (le_refl k)
  subst hm0
  rw [hv0] at hdropk
  simp only [List.drop_zero] at hdropk
  have hvl : k < vis.length := by
    rw [hinv.visLen]
    exact hk
  have hs : (chunks.map (get_order_index_from pairs)).getD k [] =
      get_order_index_from pairs (chunkAt chunks k) :=
    sortedI_getD pairs chunks k
  have hslen : ((chunks.map (get_order_index_from pairs)).getD k []).length =
      (chunkAt chunks k).cardinality := by
    rw [hs, length_get_order_index]
  have hspec := pushHeapAux_spec pairs chunks (chunkAt chunks k)
      ((chunks.map (get_order_index_from pairs)).getD k [])
      k (chunkAt chunks k).cardinality
      (vis.getD k 0) hp (by omega) hvlek hslen
  rcases hV : vseq pairs chunks k with _ | ⟨j, rest⟩
  · -- the chunk has no visible row: nothing is pushed
    have hrem : (((chunks.map (get_order_index_from pairs)).getD k []).drop
        (vis.getD k 0)).filter (chunkAt chunks k).visibleRow = [] := by
      rw [hs, hv0, List.drop_zero, hdropk, hV]
    have hres : push_heap_for_chunk pairs chunks (chunks.map (get_order_index_from pairs))
        k hp vis = (hp, vis.set k (chunkAt chunks k).cardinality) := by
      simp only [push_heap_for_chunk]
      rw [hspec.1 hrem]
    rw [hres]
    refine ⟨hinv.isHeap, ?_, hinv.allIdx, ?_, List.Pairwise.nil, ?_, ?_⟩
    · rw [List.length_set]
      exact hinv.visLen
    · intro e he
      exact absurd he (List.not_mem_nil e)
    · intro e he
      exact absurd he (List.not_mem_nil e)
    · intro i hi
      by_cases hii : k = i
      · subst hii
        refine ⟨0, Nat.zero_le _, ?_, ?_, ?_, ?_, ?_, ?_⟩
        · simp [hfk]
        · rw [hfk]
          simp
        · rw [getD_set_self_nat hvl]
          have hnil : (get_order_index_from pairs (chunkAt chunks k)).drop
              (chunkAt chunks k).cardinality = [] :=
            List.drop_eq_nil_of_le (by rw [length_get_order_index])
          rw [hnil, hV]
          rfl
        · rw [getD_set_self_nat hvl]
        · intro _ _
          rw [hV]
          rfl
        · intro hcon
          omega
      · obtain ⟨mi, hmile, heqi, hlen1i, hdropi, hvlei, hfulli, hunsi⟩ := hinv.chunkSt i hi
        refine ⟨mi, hmile, heqi, hlen1i, ?_, ?_, ?_, ?_⟩
        · rw [getD_set_ne_nat hii]
          exact hdropi
        · rw [getD_set_ne_nat hii]
          exact hvlei
        · intro hik1 hnil
          exact hfulli (by omega) hnil
        · intro h1
          have huns := hunsi (by omega)
          refine ⟨huns.1, ?_, huns.2.2⟩
          rw [getD_set_ne_nat hii]
          exact huns.2.1
  · -- the chunk's least visible row is pushed as its first candidate
    have hrem : (((chunks.map (get_order_index_from pairs)).getD k []).drop
        (vis.getD k 0)).filter (chunkAt chunks k).visibleRow = j :: rest := by
      rw [hs, hv0, List.drop_zero, hdropk, hV]
    obtain ⟨v', hpush, hv'le, hrem'⟩ := hspec.2 j rest hrem
    have hres : push_heap_for_chunk pairs chunks (chunks.map (get_order_index_from pairs))
        k hp vis = (hp.push (heLe pairs chunks) ⟨k, j⟩, vis.set k v') := by
      simp only [push_heap_for_chunk]
      rw [hpush]
    have hcont : (BinaryHeap.contents (hp.push (heLe pairs chunks)
        (HeapElem.mk k j))).Perm
        (HeapElem.mk k j :: BinaryHeap.contents hp) :=
      BinaryHeap.contents_push hp (HeapElem.mk k j)
    rw [hres]
    refine ⟨?_, ?_, ?_, ?_, List.Pairwise.nil, ?_, ?_⟩
    · exact BinaryHeap.push_isHeap htot htr hp _ hinv.isHeap hinv.allIdx hk
    · rw [List.length_set]
      exact hinv.visLen
    · exact BinaryHeap.allP_push hp _ hinv.allIdx hk
    · intro e he
      exact absurd he (List.not_mem_nil e)
    · intro e he
      exact absurd he (List.not_mem_nil e)
    · intro i hi
      by_cases hii : k = i
      · subst hii
        have hHnew : (BinaryHeap.contents (hp.push (heLe pairs chunks)
            (HeapElem.mk k j))).filter (fun e => e.chunk_idx == k) =
            [HeapElem.mk k j] := by
          have hpf := hcont.filter (fun e => e.chunk_idx == k)
          rw [List.filter_cons, if_pos (by simp), hfk] at hpf
          exact perm_eq_of_length_le_one hpf (by simp)
        refine ⟨1, ?_, ?_, ?_, ?_, ?_, ?_, ?_⟩
        · rw [hV]
          simp
        · simp [hHnew, hV]
        · rw [hHnew]
          simp
        · rw [getD_set_self_nat hvl, ← hs, hrem', hV]
          rfl
        · rw [getD_set_self_nat hvl]
          exact hv'le
        · intro _ hnil
          rw [hHnew] at hnil
          simp at hnil
        · intro hcon
          omega
      · obtain ⟨mi, hmile, heqi, hlen1i, hdropi, hvlei, hfulli, hunsi⟩ := hinv.chunkSt i hi
        have hHi : (BinaryHeap.contents (hp.push (heLe pairs chunks)
            (HeapElem.mk k j))).filter (fun e => e.chunk_idx == i) =
            (BinaryHeap.contents hp).filter (fun e => e.chunk_idx == i) := by
          have hpf := hcont.filter (fun e => e.chunk_idx == i)
          rw [List.filter_cons, if_neg (by simp [hii])] at hpf
          exact perm_eq_of_length_le_one hpf hlen1i
        refine ⟨mi, hmile, ?_, ?_, ?_, ?_, ?_, ?_⟩
        · rw [hHi]
          exact heqi
        · rw [hHi]
          exact hlen1i
        · rw [getD_set_ne_nat hii]
          exact hdropi
        · rw [getD_set_ne_nat hii]
          exact hvlei
        · intro hik1 hnil
          rw [hHi] at hnil
          exact hfulli (by omega) hnil
        · intro h1
          have huns := hunsi (by omega)
          refine ⟨huns.1, ?_, ?_⟩
          · rw [getD_set_ne_nat hii]
            exact huns.2.1
          · rw [hHi]
            exact huns.2.2

/-- The seeding loop of `collect_child_data`: starting from an empty heap and
zeroed cursors, pushing the first candidate of chunks `0..k` establishes the
merge invariant with `k` chunks seeded. -/
theorem seed_fold {pairs : List OrderPair} {chunks : List DataChunk} {d : Nat}
    (hWF : WFInput pairs chunks d) :
    ∀ k, k ≤ chunks.length →
    MergeSt pairs chunks k
      (((List.range k).foldl
        (fun (acc : BinaryHeap HeapElem × List Nat) idx =>
          push_heap_for_chunk pairs chunks (chunks.map (get_order_index_from pairs))
            idx acc.1 acc.2)
        (⟨0, fun _ => default⟩, List.replicate chunks.length 0)).1)
      (((List.range k).foldl
        (fun (acc : BinaryHeap HeapElem × List Nat) idx =>
          push_heap_for_chunk pairs chunks (chunks.map (get_order_index_from pairs))
            idx acc.1 acc.2)
        (⟨0, fun _ => default⟩, List.replicate chunks.length 0)).2)
      [] := by
  intro k
  induction k with
  | zero =>
    intro _
    simp only [List.range_zero, List.foldl_nil]
    refine ⟨?_, ?_, ?_, ?_, List.Pairwise.nil, ?_, ?_⟩
    · intro i hi0 hisz
      exact absurd hisz (Nat.not_lt_zero i)
    · exact List.length_replicate _ _
    · intro i hi
      exact absurd hi (Nat.not_lt_zero i)
    · intro e he
      exact absurd he (List.not_mem_nil e)
    · intro e he
      exact absurd he (List.not_mem_nil e)
    · intro i hi
      refine ⟨0, Nat.zero_le _, rfl, Nat.zero_le _, ?_, ?_, ?_, ?_⟩
      · rw [getD_replicate_zero]
        simp only [List.drop_zero]
        rfl
      · rw [getD_replicate_zero]
        exact Nat.zero_le _
      · intro hcon
        omega
      · intro _
        exact ⟨rfl, getD_replicate_zero, rfl⟩
  | succ k ih =>
    intro hk1
    have hk : k < chunks.length := by omega
    have hprev := ih (by omega)
    rw [List.range_succ, List.foldl_append]
    exact seed_step hWF hk hprev

/-! ### Bridging the merge loop's output to the built batches -/

theorem range_map_getD {β γ : Type} (l : List β) (dflt : β) (f : β → γ) :
    (List.range l.length).map (fun j => f (l.getD j dflt)) = l.map f := by
  apply List.ext_getElem
  · simp
  · intro n h1 h2
    simp only [List.getElem_map, List.getElem_range]
    rw [List.getD_eq_getElem?_getD, List.getElem?_eq_getElem (by simpa using h2)]
    rfl

/-- On a well-formed candidate the builders materialize exactly its row. -/
theorem buildRow_eq {chunks : List DataChunk} {d : Nat} {e : HeapElem}
    (hdim : (chunkAt chunks e.chunk_idx).dimension = d) :
    buildRow d chunks e = some (rowOf chunks e) := by
  simp only [buildRow, rowOf]
  rw [if_pos (le_of_eq hdim.symm), ← hdim]
  exact congrArg some (range_map_getD (chunkAt chunks e.chunk_idx).columns []
    (fun col => col.getD e.elem_idx none))

theorem mapM_eq_some_map {β γ : Type} (f : β → Option γ) (g : β → γ) :
    ∀ l : List β, (∀ x ∈ l, f x = some (g x)) → l.mapM f = some (l.map g) := by
  intro l
  induction l with
  | nil => intro _; rfl
  | cons a t ih =>
    intro h
    rw [List.mapM_cons, h a (List.mem_cons_self a t),
      ih (fun x hx => h x (List.mem_cons_of_mem _ hx))]
    rfl

/-- Rebuilding a batch from rows of uniform width `d > 0` loses nothing. -/
theorem rowsOf_buildChunk {d : Nat} (hd : 0 < d) (rows : List (List Value))
    (hlen : ∀ r ∈ rows, r.length = d) :
    rowsOf (buildChunk d rows) = rows := by
  have hcard : (buildChunk d rows).cardinality = rows.length := by
    rcases d with _ | d0
    · omega
    · unfold buildChunk DataChunk.cardinality
      rw [List.range_succ_eq_map]
      simp
  unfold rowsOf
  rw [hcard]
  apply List.ext_getElem
  · simp
  · intro n h1 h2
    have hn : n < rows.length := by simpa using h2
    simp only [List.getElem_map, List.getElem_range]
    have hr : rows[n].length = d := hlen _ (List.getElem_mem hn)
    show (buildChunk d rows).rowAt n = rows[n]
    unfold DataChunk.rowAt buildChunk
    dsimp only
    rw [List.map_map]
    have hstep : (List.range d).map
        ((fun colArr => colArr.getD n none) ∘
          (fun j => rows.map (fun r => r.getD j none))) =
        (List.range d).map (fun j => rows[n].getD j none) := by
      apply List.map_congr_left
      intro j _
      simp only [Function.comp]
      rw [List.getD_eq_getElem?_getD, List.getElem?_map, List.getElem?_eq_getElem hn]
      rfl
    rw [hstep, ← hr]
    exact (range_map_getD rows[n] none id).trans (List.map_id _)

theorem dimension_pos_of_cardinality_pos {c : DataChunk} (h : 0 < c.cardinality) :
    0 < c.dimension := by
  unfold DataChunk.cardinality at h
  unfold DataChunk.dimension
  cases hc : c.columns with
  | nil => rw [hc] at h; simp at h
  | cons a t => simp

theorem mkState_execute (pairs : List OrderPair) (chunks : List DataChunk)
    (d : Nat) (b : Bool) (hp : BinaryHeap HeapElem) (vis : List Nat) :
    (mkState pairs chunks d b hp vis).execute =
      executeMerge (mkState pairs chunks d b hp vis) := rfl


/-- The merge phase: a successful run from any state satisfying the merge
invariant ends with every remaining candidate emitted, per chunk in locally
sorted order, and the whole output nondecreasing. -/
theorem runExec_merge {pairs : List OrderPair} {chunks : List DataChunk} {d : Nat}
    (hWF : WFInput pairs chunks d) :
    ∀ (fuel : Nat) (hp : BinaryHeap HeapElem) (vis : List Nat)
      (emitted : List HeapElem) (b : Bool) (out : List DataChunk),
    MergeSt pairs chunks chunks.length hp vis emitted →
    runExec fuel (mkState pairs chunks d b hp vis) = some out →
    ∃ rest : List HeapElem,
      (out.map rowsOf).flatten = rest.map (rowOf chunks) ∧
      List.Pairwise (rowLe pairs chunks) (emitted ++ rest) ∧
      (∀ e ∈ rest, e.chunk_idx < chunks.length) ∧
      (∀ i, i < chunks.length →
        (emitted ++ rest).filter (fun e => e.chunk_idx == i) =
          (vseq pairs chunks i).map (fun j => HeapElem.mk i j)) := by
  intro fuel
  induction fuel with
  | zero =>
    intro hp vis emitted b out _ hrun
    simp [runExec] at hrun
  | succ fuel ih =>
    intro hp vis emitted b out hinv hrun
    rcases hpop : hp.pop (heLe pairs chunks) with _ | ⟨top, hp2⟩
    · -- empty heap: this pull reports Done, the run ends here
      have hsz0 : hp.size = 0 := (BinaryHeap.pop_none_iff _ _).mp hpop
      have hexec : (mkState pairs chunks d b hp vis).execute =
          some (.Done, mkState pairs chunks d b hp vis) := by
        rw [mkState_execute]
        exact executeMerge_of_empty hsz0
      simp only [runExec] at hrun
      rw [hexec] at hrun
      simp at hrun
      subst hrun
      have hcont0 : BinaryHeap.contents hp = [] := by
        unfold BinaryHeap.contents
        rw [hsz0]
        rfl
      refine ⟨[], rfl, ?_, ?_, ?_⟩
      · rw [List.append_nil]
        exact hinv.emSorted
      · intro e he
        exact absurd he (List.not_mem_nil e)
      · intro i hi
        rw [List.append_nil]
        obtain ⟨m, hmle, heq, _, _, _, hfull, _⟩ := hinv.chunkSt i hi
        rw [hcont0] at heq hfull
        simp only [List.filter_nil] at heq hfull
        rw [List.append_nil] at heq
        have hm : m = (vseq pairs chunks i).length := hfull hi trivial
        rw [hm, List.take_length] at heq
        exact heq
    · -- a candidate pops: this pull emits a batch and the run continues
      have hK : K_PROCESSING_WINDOW_SIZE = 1023 + 1 := rfl
      have hMS := mergeLoop_preserves hWF K_PROCESSING_WINDOW_SIZE hp vis emitted hinv
      rcases hP : (mergeLoop pairs chunks (chunks.map (get_order_index_from pairs)) K_PROCESSING_WINDOW_SIZE hp vis).1 with _ | ⟨e0, es⟩
      · exfalso
        have hsz0 : hp.size = 0 := by
          rw [hK] at hP
          exact mergeLoop_nil_size _ _ _ _ _ _ hP
        rw [(BinaryHeap.pop_none_iff (heLe pairs chunks) hp).mpr hsz0] at hpop
        cases hpop
      · have hpoppedIdx : ∀ e ∈ (mergeLoop pairs chunks (chunks.map (get_order_index_from pairs)) K_PROCESSING_WINDOW_SIZE hp vis).1, e.chunk_idx < chunks.length := by
          intro e he
          exact hMS.emIdx e (List.mem_append_right _ he)
        have hmapM : (mergeLoop pairs chunks (chunks.map (get_order_index_from pairs)) K_PROCESSING_WINDOW_SIZE hp vis).1.mapM (buildRow d chunks) =
            some ((mergeLoop pairs chunks (chunks.map (get_order_index_from pairs)) K_PROCESSING_WINDOW_SIZE hp vis).1.map (rowOf chunks)) :=
          mapM_eq_some_map _ _ _
            (fun e he => buildRow_eq (hWF.1 _ (chunkAt_mem (hpoppedIdx e he))))
        have hexec : (mkState pairs chunks d b hp vis).execute =
            some (.Batch (buildChunk d ((mergeLoop pairs chunks (chunks.map (get_order_index_from pairs)) K_PROCESSING_WINDOW_SIZE hp vis).1.map (rowOf chunks))),
              mkState pairs chunks d b (mergeLoop pairs chunks (chunks.map (get_order_index_from pairs)) K_PROCESSING_WINDOW_SIZE hp vis).2.1 (mergeLoop pairs chunks (chunks.map (get_order_index_from pairs)) K_PROCESSING_WINDOW_SIZE hp vis).2.2) := by
          rw [mkState_execute]
          simp only [executeMerge, mkState]
          rw [hmapM, hP]
          simp
        simp only [runExec] at hrun
        rw [hexec] at hrun
        simp at hrun
        obtain ⟨out2, hrun2, hout⟩ := hrun
        obtain ⟨rest2, hrows2, hsort2, hidx2, hfilt2⟩ := ih
          (mergeLoop pairs chunks (chunks.map (get_order_index_from pairs)) K_PROCESSING_WINDOW_SIZE hp vis).2.1 (mergeLoop pairs chunks (chunks.map (get_order_index_from pairs)) K_PROCESSING_WINDOW_SIZE hp vis).2.2 (emitted ++ (mergeLoop pairs chunks (chunks.map (get_order_index_from pairs)) K_PROCESSING_WINDOW_SIZE hp vis).1) b out2 hMS hrun2
        have he0mem : e0 ∈ emitted ++ (mergeLoop pairs chunks (chunks.map (get_order_index_from pairs)) K_PROCESSING_WINDOW_SIZE hp vis).1 := by
          refine List.mem_append_right _ ?_
          rw [hP]
          exact List.mem_cons_self e0 es
        have he0i : e0.chunk_idx < chunks.length := hMS.emIdx e0 he0mem
        have hvne : vseq pairs chunks e0.chunk_idx ≠ [] := by
          intro hv
          obtain ⟨m2, _, heq2, _⟩ := hMS.chunkSt e0.chunk_idx he0i
          rw [hv] at heq2
          simp only [List.take_nil, List.map_nil, List.append_eq_nil] at heq2
          have hmf : e0 ∈ (emitted ++ (mergeLoop pairs chunks (chunks.map (get_order_index_from pairs)) K_PROCESSING_WINDOW_SIZE hp vis).1).filter
              (fun e => e.chunk_idx == e0.chunk_idx) :=
            List.mem_filter.mpr ⟨he0mem, by simp⟩
          rw [heq2.1] at hmf
          exact absurd hmf (List.not_mem_nil e0)
        have hcard0 : 0 < (chunkAt chunks e0.chunk_idx).cardinality := by
          rcases hv : vseq pairs chunks e0.chunk_idx with _ | ⟨j0, t0⟩
          · exact absurd hv hvne
          · have hj0 : j0 ∈ vseq pairs chunks e0.chunk_idx := by
              rw [hv]
              exact List.mem_cons_self j0 t0
            have := (vseq_mem hj0).1
            omega
        have hdpos : 0 < d := by
          have hdim := dimension_pos_of_cardinality_pos hcard0
          rw [hWF.1 _ (chunkAt_mem he0i)] at hdim
          exact hdim
        have hlenrows : ∀ r ∈ (mergeLoop pairs chunks (chunks.map (get_order_index_from pairs)) K_PROCESSING_WINDOW_SIZE hp vis).1.map (rowOf chunks), r.length = d := by
          intro r hr
          obtain ⟨e, he, rfl⟩ := List.mem_map.mp hr
          unfold rowOf
          rw [rowAt_length]
          exact hWF.1 _ (chunkAt_mem (hpoppedIdx e he))
        have hRB := rowsOf_buildChunk hdpos _ hlenrows
        refine ⟨(mergeLoop pairs chunks (chunks.map (get_order_index_from pairs)) K_PROCESSING_WINDOW_SIZE hp vis).1 ++ rest2, ?_, ?_, ?_, ?_⟩
        · rw [← hout, List.map_cons, List.flatten_cons, hRB, hrows2, List.map_append]
        · rw [← List.append_assoc]
          exact hsort2
        · intro e he
          rcases List.mem_append.mp he with he | he
          · exact hpoppedIdx e he
          · exact hidx2 e he
        · intro i hi
          rw [← List.append_assoc]
          exact hfilt2 i hi

/-! ### Decomposing the emitted candidates by source chunk -/

theorem flatten_map_nil {β : Type} : ∀ L : List Nat,
    ((L.map (fun _ => ([] : List β))).flatten) = [] := by
  intro L
  induction L with
  | nil => rfl
  | cons x xs ih => simpa using ih

theorem flatten_cons_bucket {β : Type} (a : β) :
    ∀ (L : List Nat) (c : Nat), c ∈ L → L.Nodup →
    ∀ (f g : Nat → List β), f c = a :: g c → (∀ i ∈ L, i ≠ c → f i = g i) →
    ((L.map f).flatten).Perm (a :: (L.map g).flatten) := by
  intro L
  induction L with
  | nil =>
    intro c hc
    cases hc
  | cons x xs ih =>
    intro c hc hnd f g hfc hother
    rcases List.mem_cons.mp hc with rfl | hmem
    · have hxs : ∀ i ∈ xs, f i = g i := by
        intro i hi
        refine hother i (List.mem_cons_of_mem _ hi) ?_
        intro he
        subst he
        exact (List.nodup_cons.mp hnd).1 hi
      have hmap : xs.map f = xs.map g := List.map_congr_left hxs
      simp only [List.map_cons, List.flatten_cons, hfc, hmap]
      exact List.Perm.refl _
    · have hx : x ≠ c := by
        intro he
        subst he
        exact (List.nodup_cons.mp hnd).1 hmem
      have hfx : f x = g x := hother x (List.mem_cons_self _ _) hx
      have hrec := ih c hmem (List.nodup_cons.mp hnd).2 f g hfc
        (fun i hi hic => hother i (List.mem_cons_of_mem _ hi) hic)
      simp only [List.map_cons, List.flatten_cons, hfx]
      exact (List.Perm.append_left (g x) hrec).trans List.perm_middle

/-- Any list of candidates pointing below `n` is a permutation of its
by-source-chunk buckets, laid out in chunk order. -/
theorem perm_buckets {n : Nat} :
    ∀ l : List HeapElem, (∀ e ∈ l, e.chunk_idx < n) →
    l.Perm (((List.range n).map
      (fun i => l.filter (fun e => e.chunk_idx == i))).flatten) := by
  intro l
  induction l with
  | nil =>
    intro _
    rw [show (List.range n).map
        (fun i => ([] : List HeapElem).filter (fun e => e.chunk_idx == i)) =
        (List.range n).map (fun _ => ([] : List HeapElem)) from
      List.map_congr_left (fun i _ => rfl), flatten_map_nil]
  | cons a t ih =>
    intro hl
    have hmem : a.chunk_idx ∈ List.range n :=
      List.mem_range.mpr (hl a (List.mem_cons_self _ _))
    have ht := ih (fun e he => hl e (List.mem_cons_of_mem _ he))
    have hstep := flatten_cons_bucket a (List.range n) a.chunk_idx hmem
      (List.nodup_range n)
      (fun i => (a :: t).filter (fun e => e.chunk_idx == i))
      (fun i => t.filter (fun e => e.chunk_idx == i))
      (by dsimp only; rw [List.filter_cons, if_pos (by simp)])
      (fun i _ hic => by
        dsimp only
        rw [List.filter_cons,
          if_neg (by simp only [beq_iff_eq]; exact fun h => hic h.symm)])
    exact (ht.cons a).trans hstep.symm

theorem flatten_map_perm {β γ : Type} (f g : β → List γ) :
    ∀ l : List β, (∀ x ∈ l, (f x).Perm (g x)) →
    ((l.map f).flatten).Perm ((l.map g).flatten) := by
  intro l
  induction l with
  | nil =>
    intro _
    exact List.Perm.refl _
  | cons a t ih =>
    intro h
    simp only [List.map_cons, List.flatten_cons]
    exact (h a (List.mem_cons_self _ _)).append
      (ih (fun x hx => h x (List.mem_cons_of_mem _ hx)))

/-! ### Hooking the fresh executor into the merge phase -/

theorem runExec_fresh_nil (pairs : List OrderPair) (fuel : Nat) :
    runExec fuel (freshExecutor pairs []) = none := by
  cases fuel with
  | zero => rfl
  | succ f => rfl

theorem runExec_congr_execute {s t : OrderByExecutor} (h : s.execute = t.execute) :
    ∀ fuel, runExec (fuel + 1) s = runExec (fuel + 1) t := by
  intro fuel
  simp only [runExec, h]


/-- The first pull of a fresh executor on a nonempty stream behaves exactly
like a pull of the collected, seeded merge state. -/
theorem execute_fresh (pairs : List OrderPair) (c0 : DataChunk)
    (cs : List DataChunk) :
    (freshExecutor pairs (c0 :: cs)).execute =
      (mkState pairs (c0 :: cs) c0.dimension false
        ((List.range (c0 :: cs).length).foldl
          (fun (acc : BinaryHeap HeapElem × List Nat) idx =>
            push_heap_for_chunk pairs (c0 :: cs)
              ((c0 :: cs).map (get_order_index_from pairs)) idx acc.1 acc.2)
          (⟨0, fun _ => default⟩, List.replicate (c0 :: cs).length 0)).1
        ((List.range (c0 :: cs).length).foldl
          (fun (acc : BinaryHeap HeapElem × List Nat) idx =>
            push_heap_for_chunk pairs (c0 :: cs)
              ((c0 :: cs).map (get_order_index_from pairs)) idx acc.1 acc.2)
          (⟨0, fun _ => default⟩, List.replicate (c0 :: cs).length 0)).2).execute := rfl

/-- Any successful run of the executor on a well-formed stream emits, over all
batches, a permutation of the visible input rows, in nondecreasing row order.
-/
theorem order_by_run_rows {pairs : List OrderPair} {stream : List DataChunk}
    {d : Nat} {fuel : Nat} {out : List DataChunk}
    (hWF : WFInput pairs stream d)
    (hrun : runExec fuel (freshExecutor pairs stream) = some out) :
    ((out.map rowsOf).flatten).Perm ((stream.map visibleRowsOf).flatten) ∧
    List.Pairwise (rowsLe pairs) ((out.map rowsOf).flatten) ∧
    ∃ rest : List HeapElem,
      (out.map rowsOf).flatten = rest.map (rowOf stream) ∧
      ∀ i, i < stream.length →
        rest.filter (fun e => e.chunk_idx == i) =
          (vseq pairs stream i).map (fun j => HeapElem.mk i j) := by
  rcases stream with _ | ⟨c0, cs⟩
  · rw [runExec_fresh_nil] at hrun
    cases hrun
  · rcases fuel with _ | g
    · cases hrun
    · have hd0 : c0.dimension = d := hWF.1 c0 (List.mem_cons_self _ _)
      have hWF2 : WFInput pairs (c0 :: cs) c0.dimension := by
        rw [hd0]
        exact hWF
      have hrun2 : runExec (g + 1) (mkState pairs (c0 :: cs) c0.dimension false
          ((List.range (c0 :: cs).length).foldl
          (fun (acc : BinaryHeap HeapElem × List Nat) idx =>
            push_heap_for_chunk pairs (c0 :: cs)
              ((c0 :: cs).map (get_order_index_from pairs)) idx acc.1 acc.2)
          (⟨0, fun _ => default⟩, List.replicate (c0 :: cs).length 0)).1
          ((List.range (c0 :: cs).length).foldl
          (fun (acc : BinaryHeap HeapElem × List Nat) idx =>
            push_heap_for_chunk pairs (c0 :: cs)
              ((c0 :: cs).map (get_order_index_from pairs)) idx acc.1 acc.2)
          (⟨0, fun _ => default⟩, List.replicate (c0 :: cs).length 0)).2) = some out := by
        rw [← runExec_congr_execute (execute_fresh pairs c0 cs) g]
        exact hrun
      have hseed := seed_fold hWF2 (c0 :: cs).length (le_refl _)
      obtain ⟨rest, hrows, hsort, hidx, hfilt⟩ :=
        runExec_merge hWF2 (g + 1)
          ((List.range (c0 :: cs).length).foldl
          (fun (acc : BinaryHeap HeapElem × List Nat) idx =>
            push_heap_for_chunk pairs (c0 :: cs)
              ((c0 :: cs).map (get_order_index_from pairs)) idx acc.1 acc.2)
          (⟨0, fun _ => default⟩, List.replicate (c0 :: cs).length 0)).1
          ((List.range (c0 :: cs).length).foldl
          (fun (acc : BinaryHeap HeapElem × List Nat) idx =>
            push_heap_for_chunk pairs (c0 :: cs)
              ((c0 :: cs).map (get_order_index_from pairs)) idx acc.1 acc.2)
          (⟨0, fun _ => default⟩, List.replicate (c0 :: cs).length 0)).2 [] false out hseed hrun2
      simp only [List.nil_append] at hsort hfilt
      have hb := perm_buckets rest hidx
      have hbuckets : (List.range (c0 :: cs).length).map
          (fun i => rest.filter (fun e => e.chunk_idx == i)) =
          (List.range (c0 :: cs).length).map
          (fun i => (vseq pairs (c0 :: cs) i).map (fun j => HeapElem.mk i j)) :=
        List.map_congr_left (fun i hi => hfilt i (List.mem_range.mp hi))
      rw [hbuckets] at hb
      have hmap := hb.map (rowOf (c0 :: cs))
      rw [List.map_flatten, List.map_map] at hmap
      have hcomp : (List.range (c0 :: cs).length).map
          (List.map (rowOf (c0 :: cs)) ∘
            (fun i => (vseq pairs (c0 :: cs) i).map (fun j => HeapElem.mk i j))) =
          (List.range (c0 :: cs).length).map
          (fun i => (vseq pairs (c0 :: cs) i).map
            (fun j => (chunkAt (c0 :: cs) i).rowAt j)) := by
        apply List.map_congr_left
        intro i _
        simp only [Function.comp]
        rw [List.map_map]
        rfl
      rw [hcomp] at hmap
      have hvis := flatten_map_perm
        (fun i => (vseq pairs (c0 :: cs) i).map
          (fun j => (chunkAt (c0 :: cs) i).rowAt j))
        (fun i => visibleRowsOf (chunkAt (c0 :: cs) i))
        (List.range (c0 :: cs).length)
        (fun i _ => by
          unfold visibleRowsOf
          exact (vseq_perm pairs (c0 :: cs) i).map _)
      have hall := hmap.trans hvis
      have hfinal : (List.range (c0 :: cs).length).map
          (fun i => visibleRowsOf (chunkAt (c0 :: cs) i)) =
          (c0 :: cs).map visibleRowsOf :=
        range_map_getD (c0 :: cs) default visibleRowsOf
      rw [hfinal] at hall
      refine ⟨?_, ?_, rest, hrows, hfilt⟩
      · rw [hrows]
        exact hall
      · rw [hrows]
        exact List.Pairwise.map _ (fun a b h => h) hsort

/-! ### Output batches carry no visibility mask -/

theorem executeMerge_batch_no_mask {s1 s2 : OrderByExecutor} {c : DataChunk}
    (h : executeMerge s1 = some (.Batch c, s2)) : c.visibility = none := by
  simp only [executeMerge] at h
  rcases hm : (mergeLoop s1.order_pairs s1.chunks s1.sorted_indices
      K_PROCESSING_WINDOW_SIZE s1.min_heap s1.vis_indices).1.mapM
      (buildRow s1.data_types s1.chunks) with _ | rows
  · rw [hm] at h
    cases h
  · rw [hm] at h
    rcases hie : rows.isEmpty with _ | _
    · simp [hie] at h
      rw [← h.1]
      rfl
    · simp [hie] at h

theorem execute_batch_no_mask {s s2 : OrderByExecutor} {c : DataChunk}
    (h : s.execute = some (.Batch c, s2)) : c.visibility = none := by
  unfold OrderByExecutor.execute at h
  by_cases hfe : s.first_execution
  · rw [if_pos hfe] at h
    rcases hfd : fill_data_types (collect_child_data s) with _ | t
    · rw [hfd] at h
      cases h
    · rw [hfd] at h
      simp only [Option.map_some'] at h
      exact executeMerge_batch_no_mask h
  · rw [if_neg hfe] at h
    exact executeMerge_batch_no_mask h

theorem runExec_no_mask :
    ∀ (fuel : Nat) (s : OrderByExecutor) (out : List DataChunk),
    runExec fuel s = some out → ∀ c ∈ out, c.visibility = none := by
  intro fuel
  induction fuel with
  | zero =>
    intro s out h
    simp [runExec] at h
  | succ f ih =>
    intro s out h
    simp only [runExec] at h
    rcases hex : s.execute with _ | ⟨res, s2⟩
    · rw [hex] at h
      cases h
    · rw [hex] at h
      rcases res with c | _
      · simp at h
        obtain ⟨out2, hrun2, hout⟩ := h
        intro c2 hc2
        rw [← hout] at hc2
        rcases List.mem_cons.mp hc2 with rfl | hmm
        · exact execute_batch_no_mask hex
        · exact ih s2 out2 hrun2 c2 hmm
      · simp at h
        subst h
        intro c2 hc2
        exact absurd hc2 (List.not_mem_nil c2)

theorem visibleRowsOf_eq_rowsOf {c : DataChunk} (h : c.visibility = none) :
    visibleRowsOf c = rowsOf c := by
  unfold visibleRowsOf rowsOf
  have hall : ∀ i, c.visibleRow i = true := by
    intro i
    unfold DataChunk.visibleRow DataChunk.skippedRow
    rw [h]
    rfl
  rw [List.filter_eq_self.mpr (fun i _ => hall i)]

theorem pair_sublist_range {a b : Nat} (hab : a < b) :
    ∀ n : Nat, b < n → [a, b].Sublist (List.range n) := by
  intro n
  induction n with
  | zero =>
    intro hb
    omega
  | succ m ih =>
    intro hb
    rw [List.range_succ]
    rcases Nat.lt_or_ge b m with hbm | hbm
    · exact (ih hbm).trans (List.sublist_append_left _ _)
    · have hbe : b = m := by omega
      subst hbe
      have h1 : [a].Sublist (List.range b) :=
        List.singleton_sublist.mpr (List.mem_range.mpr hab)
      exact h1.append (List.Sublist.refl [b])

/-- C1: For every well-formed input stream, a completed sequence of
`OrderByExecutor::execute` pulls emits batches whose concatenated rows, in
emission order, are nondecreasing under the configured order pairs (descending
keys are handled inside the comparator via `applyDir`), and every emitted row
is one of the visible input rows — rows masked invisible never appear. -/
theorem order_by_sorted_no_invisible
    {pairs : List OrderPair} {stream : List DataChunk} {d fuel : Nat}
    {out : List DataChunk}
    (hWF : WFInput pairs stream d)
    (hrun : runExec fuel (freshExecutor pairs stream) = some out) :
    List.Pairwise (rowsLe pairs) ((out.map rowsOf).flatten) ∧
    ∀ r ∈ (out.map rowsOf).flatten, r ∈ (stream.map visibleRowsOf).flatten := by
  obtain ⟨hperm, hsort, _⟩ := order_by_run_rows hWF hrun
  exact ⟨hsort, fun r hr => hperm.mem_iff.mp hr⟩

theorem order_by_sorted_no_invisible_witness :
    WFInput pairs0 [⟨[[some 5, some 4]], some [true, false]⟩, oneChunk 3] 1 ∧
    runExec 3 (freshExecutor pairs0
      [⟨[[some 5, some 4]], some [true, false]⟩, oneChunk 3]) =
      some [⟨[[some 3, some 5]], none⟩] ∧
    (List.Pairwise (rowsLe pairs0)
      ((([⟨[[some 3, some 5]], none⟩] : List DataChunk).map rowsOf).flatten) ∧
     ∀ r ∈ (([⟨[[some 3, some 5]], none⟩] : List DataChunk).map rowsOf).flatten,
       r ∈ ((([⟨[[some 5, some 4]], some [true, false]⟩, oneChunk 3] :
         List DataChunk)).map visibleRowsOf).flatten) :=
  ⟨⟨by decide, by decide⟩, by decide,
    @order_by_sorted_no_invisible pairs0
      [⟨[[some 5, some 4]], some [true, false]⟩, oneChunk 3] 1 3
      [⟨[[some 3, some 5]], none⟩] ⟨by decide, by decide⟩ (by decide)⟩

/-- C3: For every well-formed input stream, the total number of visible rows
over all emitted batches (which carry no visibility mask) equals the total
number of visible rows over all input batches: the merge loses no row and
duplicates none. -/
theorem order_by_cardinality_conserved
    {pairs : List OrderPair} {stream : List DataChunk} {d fuel : Nat}
    {out : List DataChunk}
    (hWF : WFInput pairs stream d)
    (hrun : runExec fuel (freshExecutor pairs stream) = some out) :
    ((out.map visibleRowsOf).flatten).length =
      ((stream.map visibleRowsOf).flatten).length := by
  have hperm := (order_by_run_rows hWF hrun).1
  have hnm := runExec_no_mask fuel _ out hrun
  have hvr : out.map visibleRowsOf = out.map rowsOf :=
    List.map_congr_left (fun c hc => visibleRowsOf_eq_rowsOf (hnm c hc))
  rw [hvr]
  exact hperm.length_eq

theorem order_by_cardinality_conserved_witness :
    WFInput pairs0 [oneChunk 7, oneChunk 3] 1 ∧
    runExec 3 (freshExecutor pairs0 [oneChunk 7, oneChunk 3]) =
      some [⟨[[some 3, some 7]], none⟩] ∧
    ((([⟨[[some 3, some 7]], none⟩] : List DataChunk).map visibleRowsOf).flatten).length =
      ((([oneChunk 7, oneChunk 3] : List DataChunk).map visibleRowsOf).flatten).length :=
  ⟨⟨by decide, by decide⟩, by decide,
    @order_by_cardinality_conserved pairs0 [oneChunk 7, oneChunk 3] 1 3
      [⟨[[some 3, some 7]], none⟩] ⟨by decide, by decide⟩ (by decide)⟩

/-- C4 (counterexample): two visible single-row batches whose rows compare
equal under the full order-pair sequence (batches 1 and 2 of four equal-keyed
batches) do NOT appear in the output in batch arrival order: the binary heap's
sift ties are not broken by insertion order, and the run emits the row of
batch 2 before the row of batch 1. -/
theorem order_by_cross_batch_unstable :
    compare_two_row pairs0 (markerChunk 1) 0 (markerChunk 2) 0 = some .eq ∧
    (markerChunk 1).visibleRow 0 = true ∧
    (markerChunk 2).visibleRow 0 = true ∧
    runExec 10 (freshExecutor pairs0
      [markerChunk 0, markerChunk 1, markerChunk 2, markerChunk 3]) =
      some [⟨[[some 1, some 1, some 1, some 1],
              [some 0, some 2, some 1, some 3]], none⟩] ∧
    ¬ [(markerChunk 1).rowAt 0, (markerChunk 2).rowAt 0].Sublist
      ((([⟨[[some 1, some 1, some 1, some 1],
            [some 0, some 2, some 1, some 3]], none⟩] :
        List DataChunk).map rowsOf).flatten) :=
  ⟨by decide, by decide, by decide, by decide, by decide⟩

/-- C4 (amended): rows with equal keys coming from the same input batch do
keep their in-batch relative order in the output — the local sort is stable —
while equal-keyed rows of different batches may be reordered (see the
counterexample). -/
theorem order_by_same_batch_stable
    {pairs : List OrderPair} {stream : List DataChunk} {d fuel : Nat}
    {out : List DataChunk}
    (hWF : WFInput pairs stream d)
    (hrun : runExec fuel (freshExecutor pairs stream) = some out)
    {i a b : Nat} (hi : i < stream.length) (hab : a < b)
    (hb : b < (chunkAt stream i).cardinality)
    (hva : (chunkAt stream i).visibleRow a = true)
    (hvb : (chunkAt stream i).visibleRow b = true)
    (hle : localOrdLe pairs (chunkAt stream i) a b) :
    [(chunkAt stream i).rowAt a, (chunkAt stream i).rowAt b].Sublist
      ((out.map rowsOf).flatten) := by
  obtain ⟨_, _, rest, hrows, hfilt⟩ := order_by_run_rows hWF hrun
  have h1 : [a, b].Sublist (List.range (chunkAt stream i).cardinality) :=
    pair_sublist_range hab _ hb
  have h2 : [a, b].Sublist (get_order_index_from pairs (chunkAt stream i)) :=
    List.pair_sublist_insertionSort hle h1
  have h3 : [a, b].Sublist (vseq pairs stream i) := by
    have hf := h2.filter ((chunkAt stream i).visibleRow)
    have hpair : [a, b].filter ((chunkAt stream i).visibleRow) = [a, b] :=
      List.filter_eq_self.mpr (by
        intro x hx
        rcases List.mem_cons.mp hx with rfl | hx2
        · exact hva
        · rcases List.mem_singleton.mp hx2 with rfl
          exact hvb)
    rw [hpair] at hf
    exact hf
  have h4 : ([a, b].map (fun j => HeapElem.mk i j)).Sublist
      ((vseq pairs stream i).map (fun j => HeapElem.mk i j)) := h3.map _
  rw [← hfilt i hi] at h4
  have h5 := h4.trans (List.filter_sublist rest)
  have h6 := h5.map (rowOf stream)
  rw [hrows]
  simpa using h6

theorem order_by_same_batch_stable_witness :
    WFInput pairs0 [⟨[[some 1, some 1], [some 10, some 20]], none⟩] 2 ∧
    runExec 3 (freshExecutor pairs0
      [⟨[[some 1, some 1], [some 10, some 20]], none⟩]) =
      some [⟨[[some 1, some 1], [some 10, some 20]], none⟩] ∧
    localOrdLe pairs0
      (chunkAt [⟨[[some 1, some 1], [some 10, some 20]], none⟩] 0) 0 1 ∧
    [(chunkAt [⟨[[some 1, some 1], [some 10, some 20]], none⟩] 0).rowAt 0,
     (chunkAt [⟨[[some 1, some 1], [some 10, some 20]], none⟩] 0).rowAt 1].Sublist
      ((([⟨[[some 1, some 1], [some 10, some 20]], none⟩] :
        List DataChunk).map rowsOf).flatten) :=
  ⟨⟨by decide, by decide⟩, by decide, by decide,
    @order_by_same_batch_stable pairs0
      [⟨[[some 1, some 1], [some 10, some 20]], none⟩] 2 3
      [⟨[[some 1, some 1], [some 10, some 20]], none⟩]
      ⟨by decide, by decide⟩ (by decide) 0 0 1 (by decide) (by decide)
      (by decide) (by decide) (by decide) (by decide)⟩
